import Mathlib

/-!
Verification of the console-statement stripping scripts
(`remove_console.py` and `clean_console.py`).

Source text is modelled as `List Char`.  The Python `re` substitutions used
by the scripts are embedded as deterministic scanners: each fixed pattern
admits a deterministic leftmost-longest matcher (the character classes of
adjacent quantifiers are disjoint except where explicit backtracking is
modelled, namely in the `.catch` pattern and the trailing `\s*$`).
-/

/-- The ASCII whitespace characters matched by Python's `\s` (and stripped
by `str.strip()`). -/
def wsChar (c : Char) : Bool :=
  c = ' ' || c = '\t' || c = '\n' || c = '\r' || c = '\x0b' || c = '\x0c'

/-- Strip a literal from the front of a list: `some r` when `s = p ++ r`. -/
def stripPfx : List Char → List Char → Option (List Char)
  | [], s => some s
  | _ :: _, [] => none
  | p :: ps, c :: cs => if c = p then stripPfx ps cs else none

/-- Split a list at its last `'\n'`: `some (u, v)` when `w = u ++ '\n' :: v`
and `v` contains no `'\n'`; `none` when `w` has no `'\n'`. -/
def lastNlSplit : List Char → Option (List Char × List Char)
  | [] => none
  | c :: cs =>
    match lastNlSplit cs with
    | some (u, v) => some (c :: u, v)
    | none => if c = '\n' then some ([], cs) else none

/-- The literal `console.log(`. -/
def logCall : List Char := "console.log(".data

/-- The literal `console.warn(`. -/
def warnCall : List Char := "console.warn(".data

/-- The literal `.catch(`. -/
def catchTok : List Char := ".catch(".data

/-- The replacement text `.catch(e => {})`. -/
def catchRepl : List Char := ".catch(e => \x7b\x7d)".data

/-- The trailing `\s*$` of the MULTILINE standalone pattern, applied after
the `;`: greedily consume whitespace, backtracking until `$` holds (end of
input, or just before a `'\n'`).  Returns the remainder after the match. -/
def trailDollar (r : List Char) : Option (List Char) :=
  if (r.dropWhile wsChar).isEmpty then some []
  else
    match lastNlSplit (r.takeWhile wsChar) with
    | some (_, v) => some ('\n' :: (v ++ r.dropWhile wsChar))
    | none => none

/-- Matcher for `^\s*fn[^)]*\);\s*$` (MULTILINE) at an anchored position:
`some r` means the pattern matches a prefix, leaving remainder `r`. -/
def matchStandalone (fn : List Char) (s : List Char) : Option (List Char) :=
  match stripPfx fn (s.dropWhile wsChar) with
  | none => none
  | some r1 =>
    match r1.dropWhile (· != ')') with
    | ')' :: ';' :: r3 => trailDollar r3
    | _ => none

/-- Matcher for the inline pattern `fn[^)]*\);\s*` at a position. -/
def matchInline (fn : List Char) (s : List Char) : Option (List Char) :=
  match stripPfx fn s with
  | none => none
  | some r1 =>
    match r1.dropWhile (· != ')') with
    | ')' :: ';' :: r3 => some (r3.dropWhile wsChar)
    | _ => none

/-- The tail `[^)]*\)[^)]*\)` of the `.catch` pattern. -/
def catchTail (t : List Char) : Option (List Char) :=
  match t.dropWhile (· != ')') with
  | ')' :: t2 =>
    match t2.dropWhile (· != ')') with
    | ')' :: t4 => some t4
    | _ => none
  | _ => none

/-- Backtracking search for `[^)]*console\.log\([^)]*\)[^)]*\)` after
`.catch(`: the greedy `[^)]*` prefers the rightmost viable occurrence of
`console.log(`, so deeper alternatives are tried first. -/
def catchSearch : List Char → Option (List Char)
  | [] => none
  | c :: rest =>
    if c = ')' then none
    else
      match catchSearch rest with
      | some v => some v
      | none =>
        match stripPfx logCall (c :: rest) with
        | some t => catchTail t
        | none => none

/-- Matcher for `\.catch\([^)]*console\.log\([^)]*\)[^)]*\)` at a position. -/
def matchCatch (s : List Char) : Option (List Char) :=
  match stripPfx catchTok s with
  | none => none
  | some r => catchSearch r

/-- Matcher for `\n\s*\n\s*\n` at a position: requires a `'\n'` followed by
a whitespace run containing at least two further `'\n'`; greedily the match
extends through the last `'\n'` of the run. -/
def matchColl (s : List Char) : Option (List Char) :=
  match s with
  | [] => none
  | c :: rest =>
    if c = '\n' then
      match lastNlSplit (rest.takeWhile wsChar) with
      | some (u, v) =>
        match lastNlSplit u with
        | some _ => some (v ++ rest.dropWhile wsChar)
        | none => none
      | none => none
    else none

/-! ### The scanning substitution engines

`re.sub` scans left to right, replacing non-overlapping matches and
resuming after each match.  Each scanner is defined with a fuel parameter
(one unit per scanned position; every match consumes at least one
character, so `s.length` fuel suffices), then wrapped fuel-free. -/

/-- Whether the consumed part of `s` (the prefix before remainder `r`)
ends with a newline; this decides `^`-anchoring at the resume position. -/
def stdAnchAfter (s r : List Char) : Bool :=
  decide ((s.take (s.length - r.length)).getLast? = some '\n')

/-- Scanner for the MULTILINE standalone pattern: attempts are made only at
anchored positions (start of text, or just after `'\n'`). -/
def subStdFuel (fn : List Char) : Nat → Bool → List Char → List Char
  | _, _, [] => []
  | 0, _, s => s
  | fuel + 1, anch, c :: cs =>
    if anch then
      match matchStandalone fn (c :: cs) with
      | some r => subStdFuel fn fuel (stdAnchAfter (c :: cs) r) r
      | none => c :: subStdFuel fn fuel (c == '\n') cs
    else c :: subStdFuel fn fuel (c == '\n') cs

/-- Scanner for the inline pattern (no anchoring). -/
def subInlineFuel (fn : List Char) : Nat → List Char → List Char
  | _, [] => []
  | 0, s => s
  | fuel + 1, c :: cs =>
    match matchInline fn (c :: cs) with
    | some r => subInlineFuel fn fuel r
    | none => c :: subInlineFuel fn fuel cs

/-- Scanner for the `.catch` pattern. -/
def subCatchFuel : Nat → List Char → List Char
  | _, [] => []
  | 0, s => s
  | fuel + 1, c :: cs =>
    match matchCatch (c :: cs) with
    | some r => catchRepl ++ subCatchFuel fuel r
    | none => c :: subCatchFuel fuel cs

/-- Scanner for the blank-line collapse pattern. -/
def collapseFuel : Nat → List Char → List Char
  | _, [] => []
  | 0, s => s
  | fuel + 1, c :: cs =>
    match matchColl (c :: cs) with
    | some r => '\n' :: '\n' :: collapseFuel fuel r
    | none => c :: collapseFuel fuel cs

/-- `re.sub(r'^\s*fn[^)]*\);\s*$', '', s, flags=re.M)`, from a given
anchoring state. -/
def subStdRun (fn : List Char) (anch : Bool) (s : List Char) : List Char :=
  subStdFuel fn s.length anch s

/-- `re.sub(r'fn[^)]*\);\s*', '', s)`. -/
def subInlineRun (fn : List Char) (s : List Char) : List Char :=
  subInlineFuel fn s.length s

/-- `re.sub(r'\.catch\([^)]*console\.log\([^)]*\)[^)]*\)', '.catch(e => {})', s)`. -/
def subCatchRun (s : List Char) : List Char :=
  subCatchFuel s.length s

/-- `re.sub(r'\n\s*\n\s*\n', '\n\n', s)`. -/
def collapseRun (s : List Char) : List Char :=
  collapseFuel s.length s

/-! ### The whole-text transformation of `remove_console.py` -/

/-- The in-memory transformation performed by
`remove_console_statements` in `remove_console.py`: the six `re.sub`
passes applied in source order. -/
def remove_console_statements (content : List Char) : List Char :=
  collapseRun
    (subCatchRun
      (subInlineRun warnCall
        (subInlineRun logCall
          (subStdRun warnCall true
            (subStdRun logCall true content)))))

/-! ### The line-based transformation of `clean_console.py` -/

/-- `str.strip()`: drop leading and trailing whitespace. -/
def stripWs (l : List Char) : List Char :=
  ((l.dropWhile wsChar).reverse.dropWhile wsChar).reverse

/-- Python's `pat in line` substring test. -/
def containsTok (pat l : List Char) : Bool :=
  l.tails.any (fun t => pat.isPrefixOf t)

/-- `content.split('\n')`. -/
def splitOnNl : List Char → List (List Char)
  | [] => [[]]
  | c :: cs =>
    if c = '\n' then [] :: splitOnNl cs
    else
      match splitOnNl cs with
      | l :: ls => (c :: l) :: ls
      | [] => [[c]]

/-- `'\n'.join(lines)`. -/
def joinNl : List (List Char) → List Char
  | [] => []
  | [l] => l
  | l :: ls => l ++ '\n' :: joinNl ls

/-- The per-line filter/rewrite loop of `clean_console_statements`. -/
def cleanLines : List (List Char) → List (List Char)
  | [] => []
  | l :: ls =>
    if containsTok logCall l || containsTok warnCall l then
      if logCall.isPrefixOf (stripWs l) || warnCall.isPrefixOf (stripWs l) then
        cleanLines ls
      else
        if (stripWs (subInlineRun warnCall (subInlineRun logCall l))).isEmpty then
          cleanLines ls
        else
          subInlineRun warnCall (subInlineRun logCall l) :: cleanLines ls
    else l :: cleanLines ls

/-- The in-memory transformation performed by `clean_console_statements`
in `clean_console.py`: split into lines, filter/rewrite each line, and
rejoin with `'\n'`. -/
def clean_console_statements (content : List Char) : List Char :=
  joinNl (cleanLines (splitOnNl content))

/-- The anchoring state after scanning past `x` starting in state `anch`. -/
def anchEnd (anch : Bool) (x : List Char) : Bool :=
  match x with
  | [] => anch
  | _ :: _ => decide (x.getLast? = some '\n')

/-- No nonempty proper tail of `lit` is a prefix of `lit`; equivalently the
first character of `lit` occurs only at position `0`.  Holds for all three
literals used by the scripts. -/
def FirstUniq (lit : List Char) : Prop :=
  ∀ k < lit.length, 0 < k → ¬ (lit.drop k <+: lit)

/-- Decidable check that no position of `s` matches the blank-collapse
pattern. -/
def collFree (s : List Char) : Bool :=
  s.tails.all (fun t => (matchColl t).isNone)

/-! ### Length bounds for the matchers (used for fuel sufficiency) -/

theorem stripPfx_eq_some {p s r : List Char} :
    stripPfx p s = some r ↔ s = p ++ r := by
  induction p generalizing s with
  | nil => simp [stripPfx]
  | cons a ps ih =>
    cases s with
    | nil => simp [stripPfx]
    | cons c cs =>
      by_cases h : c = a
      · subst h; simp [stripPfx, ih]
      · simp [stripPfx, h, Ne.symm h]

theorem lastNlSplit_eq {w u v : List Char} (h : lastNlSplit w = some (u, v)) :
    w = u ++ '\n' :: v := by
  induction w generalizing u v with
  | nil => simp [lastNlSplit] at h
  | cons c cs ih =>
    unfold lastNlSplit at h
    cases hs : lastNlSplit cs with
    | some p =>
      obtain ⟨u', v'⟩ := p
      rw [hs] at h
      simp only [Option.some.injEq, Prod.mk.injEq] at h
      obtain ⟨h1, h2⟩ := h
      subst h1; subst h2
      simp [ih hs]
    | none =>
      rw [hs] at h
      by_cases hc : c = '\n'
      · subst hc; simp at h; obtain ⟨h1, h2⟩ := h; subst h1; subst h2; simp
      · simp [hc] at h

theorem length_dropWhile_le' (p : Char → Bool) (l : List Char) :
    (l.dropWhile p).length ≤ l.length := by
  induction l with
  | nil => simp [List.dropWhile]
  | cons c cs ih =>
    by_cases h : p c
    · simp [List.dropWhile, h]; omega
    · simp [List.dropWhile, h]

theorem trailDollar_some_le {r t : List Char} (h : trailDollar r = some t) :
    t.length ≤ r.length := by
  unfold trailDollar at h
  have hrw : r.takeWhile wsChar ++ r.dropWhile wsChar = r :=
    List.takeWhile_append_dropWhile wsChar r
  have hlen : (r.takeWhile wsChar).length + (r.dropWhile wsChar).length = r.length := by
    rw [← List.length_append, hrw]
  split at h
  · simp only [Option.some.injEq] at h
    subst h; simp
  · split at h
    · rename_i u v heq
      simp only [Option.some.injEq] at h
      subst h
      have hw := lastNlSplit_eq heq
      simp only [hw, List.length_append, List.length_cons] at hlen
      simp only [List.length_cons, List.length_append]
      omega
    · simp at h

theorem matchStandalone_some_lt {fn s r : List Char}
    (h : matchStandalone fn s = some r) : r.length < s.length := by
  unfold matchStandalone at h
  split at h
  · simp at h
  · rename_i r1 h1
    split at h
    · rename_i r3 heq
      have ht := trailDollar_some_le h
      have h1' : s.dropWhile wsChar = fn ++ r1 := stripPfx_eq_some.mp h1
      have hd1 : (s.dropWhile wsChar).length ≤ s.length := length_dropWhile_le' _ _
      have hd2 : (r1.dropWhile (· != ')')).length ≤ r1.length := length_dropWhile_le' _ _
      have h1l : (s.dropWhile wsChar).length = fn.length + r1.length := by
        simp [h1']
      rw [heq] at hd2
      simp only [List.length_cons] at hd2
      omega
    · simp at h

theorem matchInline_some_lt {fn s r : List Char}
    (h : matchInline fn s = some r) : r.length < s.length := by
  unfold matchInline at h
  split at h
  · simp at h
  · rename_i r1 h1
    split at h
    · rename_i r3 heq
      simp only [Option.some.injEq] at h
      subst h
      have h1' : s = fn ++ r1 := stripPfx_eq_some.mp h1
      have hd2 : (r1.dropWhile (· != ')')).length ≤ r1.length := length_dropWhile_le' _ _
      have hd3 : (r3.dropWhile wsChar).length ≤ r3.length := length_dropWhile_le' _ _
      rw [heq] at hd2
      simp only [List.length_cons] at hd2
      simp [h1']
      omega
    · simp at h

theorem catchTail_some_le {t v : List Char} (h : catchTail t = some v) :
    v.length + 2 ≤ t.length := by
  unfold catchTail at h
  split at h
  · rename_i t2 heq
    split at h
    · rename_i t4 heq2
      simp only [Option.some.injEq] at h
      subst h
      have hd1 : (t.dropWhile (· != ')')).length ≤ t.length := length_dropWhile_le' _ _
      have hd2 : (t2.dropWhile (· != ')')).length ≤ t2.length := length_dropWhile_le' _ _
      rw [heq] at hd1; rw [heq2] at hd2
      simp only [List.length_cons] at hd1 hd2
      omega
    · simp at h
  · simp at h

theorem catchSearch_some_le {s v : List Char} (h : catchSearch s = some v) :
    v.length + 2 ≤ s.length := by
  induction s with
  | nil => simp [catchSearch] at h
  | cons c rest ih =>
    unfold catchSearch at h
    split at h
    · simp at h
    · split at h
      · rename_i v' hrec
        simp only [Option.some.injEq] at h
        subst h
        have := ih hrec
        simp only [List.length_cons]
        omega
      · split at h
        · rename_i t hst
          have h1 : (c :: rest) = logCall ++ t := stripPfx_eq_some.mp hst
          have := catchTail_some_le h
          have hl : (c :: rest).length = logCall.length + t.length := by simp [h1]
          simp only [List.length_cons] at hl ⊢
          omega
        · simp at h

theorem matchCatch_some_lt {s r : List Char} (h : matchCatch s = some r) :
    r.length < s.length := by
  unfold matchCatch at h
  split at h
  · simp at h
  · rename_i t hst
    have h1 : s = catchTok ++ t := stripPfx_eq_some.mp hst
    have := catchSearch_some_le h
    have : s.length = catchTok.length + t.length := by simp [h1]
    have hc : catchTok.length = 7 := by simp [catchTok]
    have := catchSearch_some_le h
    omega

theorem matchColl_some_lt {s r : List Char} (h : matchColl s = some r) :
    r.length < s.length := by
  unfold matchColl at h
  split at h
  · simp at h
  · rename_i c rest
    split at h
    · split at h
      · rename_i u v heq
        split at h
        · rename_i p hus
          simp only [Option.some.injEq] at h
          subst h
          have hw := lastNlSplit_eq heq
          have hrw : rest.takeWhile wsChar ++ rest.dropWhile wsChar = rest :=
            List.takeWhile_append_dropWhile wsChar rest
          have hlen : (rest.takeWhile wsChar).length + (rest.dropWhile wsChar).length
              = rest.length := by rw [← List.length_append, hrw]
          have hu1 : 1 ≤ u.length := by
            obtain ⟨p1, p2⟩ := p
            have := lastNlSplit_eq hus
            simp [this]; omega
          simp only [hw, List.length_append, List.length_cons] at hlen
          simp only [List.length_cons, List.length_append]
          omega
        · simp at h
      · simp at h
    · simp at h

theorem subStdFuel_congr (fn : List Char) {f1 f2 : Nat} {anch : Bool}
    {s : List Char} (h1 : s.length ≤ f1) (h2 : s.length ≤ f2) :
    subStdFuel fn f1 anch s = subStdFuel fn f2 anch s := by
  induction f1 generalizing f2 anch s with
  | zero =>
    have : s = [] := by cases s <;> simp_all
    subst this
    cases f2 <;> simp [subStdFuel]
  | succ f ih =>
    cases s with
    | nil => cases f2 <;> simp [subStdFuel]
    | cons c cs =>
      cases f2 with
      | zero => simp at h2
      | succ g =>
        simp only [List.length_cons] at h1 h2
        simp only [subStdFuel]
        cases anch with
        | false =>
          simp only [Bool.false_eq_true, if_false]
          exact congrArg (c :: ·) (ih (by omega) (by omega))
        | true =>
          simp only [if_true]
          cases hm : matchStandalone fn (c :: cs) with
          | some r =>
            have hlt := matchStandalone_some_lt hm
            simp only [List.length_cons] at hlt
            simp only [hm]
            exact ih (by omega) (by omega)
          | none =>
            simp only [hm]
            exact congrArg (c :: ·) (ih (by omega) (by omega))

theorem subInlineFuel_congr (fn : List Char) {f1 f2 : Nat}
    {s : List Char} (h1 : s.length ≤ f1) (h2 : s.length ≤ f2) :
    subInlineFuel fn f1 s = subInlineFuel fn f2 s := by
  induction f1 generalizing f2 s with
  | zero =>
    have : s = [] := by cases s <;> simp_all
    subst this
    cases f2 <;> simp [subInlineFuel]
  | succ f ih =>
    cases s with
    | nil => cases f2 <;> simp [subInlineFuel]
    | cons c cs =>
      cases f2 with
      | zero => simp at h2
      | succ g =>
        simp only [List.length_cons] at h1 h2
        simp only [subInlineFuel]
        cases hm : matchInline fn (c :: cs) with
        | some r =>
          have hlt := matchInline_some_lt hm
          simp only [List.length_cons] at hlt
          simp only [hm]
          exact ih (by omega) (by omega)
        | none =>
          simp only [hm]
          exact congrArg (c :: ·) (ih (by omega) (by omega))

theorem subCatchFuel_congr {f1 f2 : Nat}
    {s : List Char} (h1 : s.length ≤ f1) (h2 : s.length ≤ f2) :
    subCatchFuel f1 s = subCatchFuel f2 s := by
  induction f1 generalizing f2 s with
  | zero =>
    have : s = [] := by cases s <;> simp_all
    subst this
    cases f2 <;> simp [subCatchFuel]
  | succ f ih =>
    cases s with
    | nil => cases f2 <;> simp [subCatchFuel]
    | cons c cs =>
      cases f2 with
      | zero => simp at h2
      | succ g =>
        simp only [List.length_cons] at h1 h2
        simp only [subCatchFuel]
        cases hm : matchCatch (c :: cs) with
        | some r =>
          have hlt := matchCatch_some_lt hm
          simp only [List.length_cons] at hlt
          simp only [hm]
          exact congrArg (catchRepl ++ ·) (ih (by omega) (by omega))
        | none =>
          simp only [hm]
          exact congrArg (c :: ·) (ih (by omega) (by omega))

theorem collapseFuel_congr {f1 f2 : Nat}
    {s : List Char} (h1 : s.length ≤ f1) (h2 : s.length ≤ f2) :
    collapseFuel f1 s = collapseFuel f2 s := by
  induction f1 generalizing f2 s with
  | zero =>
    have : s = [] := by cases s <;> simp_all
    subst this
    cases f2 <;> simp [collapseFuel]
  | succ f ih =>
    cases s with
    | nil => cases f2 <;> simp [collapseFuel]
    | cons c cs =>
      cases f2 with
      | zero => simp at h2
      | succ g =>
        simp only [List.length_cons] at h1 h2
        simp only [collapseFuel]
        cases hm : matchColl (c :: cs) with
        | some r =>
          have hlt := matchColl_some_lt hm
          simp only [List.length_cons] at hlt
          simp only [hm]
          exact congrArg (fun t => '\n' :: '\n' :: t) (ih (by omega) (by omega))
        | none =>
          simp only [hm]
          exact congrArg (c :: ·) (ih (by omega) (by omega))

theorem subStdRun_nil (fn : List Char) (anch : Bool) : subStdRun fn anch [] = [] := rfl

theorem subStdRun_noanch (fn : List Char) (c : Char) (cs : List Char) :
    subStdRun fn false (c :: cs) = c :: subStdRun fn (c == '\n') cs := by
  unfold subStdRun
  simp only [List.length_cons, subStdFuel, Bool.false_eq_true, if_false]

theorem subStdRun_nomatch (fn : List Char) {c : Char} {cs : List Char}
    (hm : matchStandalone fn (c :: cs) = none) :
    subStdRun fn true (c :: cs) = c :: subStdRun fn (c == '\n') cs := by
  unfold subStdRun
  simp only [List.length_cons, subStdFuel, if_true, hm]

theorem subStdRun_match (fn : List Char) {c : Char} {cs r : List Char}
    (hm : matchStandalone fn (c :: cs) = some r) :
    subStdRun fn true (c :: cs) = subStdRun fn (stdAnchAfter (c :: cs) r) r := by
  unfold subStdRun
  simp only [List.length_cons, subStdFuel, if_true, hm]
  have hlt := matchStandalone_some_lt hm
  simp only [List.length_cons] at hlt
  exact subStdFuel_congr fn (by omega) (by omega)

theorem subInlineRun_nil (fn : List Char) : subInlineRun fn [] = [] := rfl

theorem subInlineRun_nomatch (fn : List Char) {c : Char} {cs : List Char}
    (hm : matchInline fn (c :: cs) = none) :
    subInlineRun fn (c :: cs) = c :: subInlineRun fn cs := by
  unfold subInlineRun
  simp only [List.length_cons, subInlineFuel, hm]

theorem subInlineRun_match (fn : List Char) {c : Char} {cs r : List Char}
    (hm : matchInline fn (c :: cs) = some r) :
    subInlineRun fn (c :: cs) = subInlineRun fn r := by
  unfold subInlineRun
  simp only [List.length_cons, subInlineFuel, hm]
  have hlt := matchInline_some_lt hm
  simp only [List.length_cons] at hlt
  exact subInlineFuel_congr fn (by omega) (by omega)

theorem subCatchRun_nil : subCatchRun [] = [] := rfl

theorem subCatchRun_nomatch {c : Char} {cs : List Char}
    (hm : matchCatch (c :: cs) = none) :
    subCatchRun (c :: cs) = c :: subCatchRun cs := by
  unfold subCatchRun
  simp only [List.length_cons, subCatchFuel, hm]

theorem subCatchRun_match {c : Char} {cs r : List Char}
    (hm : matchCatch (c :: cs) = some r) :
    subCatchRun (c :: cs) = catchRepl ++ subCatchRun r := by
  unfold subCatchRun
  simp only [List.length_cons, subCatchFuel, hm]
  have hlt := matchCatch_some_lt hm
  simp only [List.length_cons] at hlt
  exact congrArg (catchRepl ++ ·) (subCatchFuel_congr (by omega) (by omega))

theorem collapseRun_nil : collapseRun [] = [] := rfl

theorem collapseRun_nomatch {c : Char} {cs : List Char}
    (hm : matchColl (c :: cs) = none) :
    collapseRun (c :: cs) = c :: collapseRun cs := by
  unfold collapseRun
  simp only [List.length_cons, collapseFuel, hm]

theorem collapseRun_match {c : Char} {cs r : List Char}
    (hm : matchColl (c :: cs) = some r) :
    collapseRun (c :: cs) = '\n' :: '\n' :: collapseRun r := by
  unfold collapseRun
  simp only [List.length_cons, collapseFuel, hm]
  have hlt := matchColl_some_lt hm
  simp only [List.length_cons] at hlt
  exact congrArg (fun t => '\n' :: '\n' :: t) (collapseFuel_congr (by omega) (by omega))

/-! ### Basic facts about the matchers -/

theorem stripPfx_eq_none {p s : List Char} :
    stripPfx p s = none ↔ ¬ p <+: s := by
  constructor
  · intro h hp
    obtain ⟨r, hr⟩ := hp
    rw [stripPfx_eq_some.mpr hr.symm] at h
    exact Option.noConfusion h
  · intro h
    cases hs : stripPfx p s with
    | none => rfl
    | some r => exact absurd ⟨r, (stripPfx_eq_some.mp hs).symm⟩ h

theorem matchStandalone_some_pfx {fn s r : List Char}
    (h : matchStandalone fn s = some r) : fn <+: s.dropWhile wsChar := by
  unfold matchStandalone at h
  split at h
  · exact absurd h (by simp)
  · rename_i r1 h1
    exact ⟨r1, (stripPfx_eq_some.mp h1).symm⟩

theorem matchStandalone_none_of {fn s : List Char}
    (h : ¬ fn <+: s.dropWhile wsChar) : matchStandalone fn s = none := by
  cases hm : matchStandalone fn s with
  | none => rfl
  | some r => exact absurd (matchStandalone_some_pfx hm) h

theorem matchInline_some_pfx {fn s r : List Char}
    (h : matchInline fn s = some r) : fn <+: s := by
  unfold matchInline at h
  split at h
  · exact absurd h (by simp)
  · rename_i r1 h1
    exact ⟨r1, (stripPfx_eq_some.mp h1).symm⟩

theorem matchInline_none_of {fn s : List Char}
    (h : ¬ fn <+: s) : matchInline fn s = none := by
  cases hm : matchInline fn s with
  | none => rfl
  | some r => exact absurd (matchInline_some_pfx hm) h

theorem dropWhile_suffix (p : Char → Bool) (l : List Char) :
    l.dropWhile p <:+ l := by
  refine ⟨l.takeWhile p, List.takeWhile_append_dropWhile p l⟩

theorem catchSearch_some_inf {s v : List Char}
    (h : catchSearch s = some v) : logCall <:+: s := by
  induction s with
  | nil => simp [catchSearch] at h
  | cons c rest ih =>
    unfold catchSearch at h
    split at h
    · exact absurd h (by simp)
    · split at h
      · rename_i v' hrec
        injection h with h'
        subst h'
        exact (ih hrec).trans (List.infix_cons (List.infix_refl rest))
      · split at h
        · rename_i t hst
          exact List.infix_iff_prefix_suffix.mpr
            ⟨c :: rest, ⟨t, (stripPfx_eq_some.mp hst).symm⟩, List.suffix_refl _⟩
        · exact absurd h (by simp)

theorem matchCatch_some_inf {s r : List Char}
    (h : matchCatch s = some r) : logCall <:+: s := by
  unfold matchCatch at h
  split at h
  · exact absurd h (by simp)
  · rename_i t hst
    have hs : s = catchTok ++ t := stripPfx_eq_some.mp hst
    have := catchSearch_some_inf h
    rw [hs]
    exact this.trans (List.suffix_append catchTok t).isInfix

theorem matchCatch_none_of {s : List Char}
    (h : ¬ logCall <:+: s) : matchCatch s = none := by
  cases hm : matchCatch s with
  | none => rfl
  | some r => exact absurd (matchCatch_some_inf hm) h

/-! ### Identity lemmas: a pass with no matching occurrence is a no-op -/

theorem subStdRun_id {fn s : List Char}
    (h : ∀ t, t <:+ s → matchStandalone fn t = none) (anch : Bool) :
    subStdRun fn anch s = s := by
  induction s generalizing anch with
  | nil => exact subStdRun_nil fn anch
  | cons c cs ih =>
    have htail : ∀ t, t <:+ cs → matchStandalone fn t = none := fun t ht =>
      h t (ht.trans (List.suffix_cons c cs))
    cases anch with
    | false => rw [subStdRun_noanch, ih htail]
    | true => rw [subStdRun_nomatch fn (h _ (List.suffix_refl _)), ih htail]

theorem subStdRun_id_absent {fn s : List Char}
    (h : ¬ fn <:+: s) (anch : Bool) : subStdRun fn anch s = s := by
  refine subStdRun_id (fun t ht => matchStandalone_none_of fun hp => h ?_) anch
  exact List.infix_iff_prefix_suffix.mpr
    ⟨t.dropWhile wsChar, hp, (dropWhile_suffix wsChar t).trans ht⟩

theorem subInlineRun_id {fn s : List Char}
    (h : ∀ t, t <:+ s → matchInline fn t = none) :
    subInlineRun fn s = s := by
  induction s with
  | nil => exact subInlineRun_nil fn
  | cons c cs ih =>
    have htail : ∀ t, t <:+ cs → matchInline fn t = none := fun t ht =>
      h t (ht.trans (List.suffix_cons c cs))
    rw [subInlineRun_nomatch fn (h _ (List.suffix_refl _)), ih htail]

theorem subInlineRun_id_absent {fn s : List Char}
    (h : ¬ fn <:+: s) : subInlineRun fn s = s := by
  refine subInlineRun_id fun t ht => matchInline_none_of fun hp => h ?_
  exact List.infix_iff_prefix_suffix.mpr ⟨t, hp, ht⟩

theorem subCatchRun_id {s : List Char}
    (h : ∀ t, t <:+ s → matchCatch t = none) :
    subCatchRun s = s := by
  induction s with
  | nil => exact subCatchRun_nil
  | cons c cs ih =>
    have htail : ∀ t, t <:+ cs → matchCatch t = none := fun t ht =>
      h t (ht.trans (List.suffix_cons c cs))
    rw [subCatchRun_nomatch (h _ (List.suffix_refl _)), ih htail]

theorem subCatchRun_id_absent {s : List Char}
    (h : ¬ logCall <:+: s) : subCatchRun s = s := by
  refine subCatchRun_id fun t ht => matchCatch_none_of fun hi => h (hi.trans ?_)
  exact ht.isInfix

theorem collapseRun_id {s : List Char}
    (h : ∀ t, t <:+ s → matchColl t = none) :
    collapseRun s = s := by
  induction s with
  | nil => exact collapseRun_nil
  | cons c cs ih =>
    have htail : ∀ t, t <:+ cs → matchColl t = none := fun t ht =>
      h t (ht.trans (List.suffix_cons c cs))
    rw [collapseRun_nomatch (h _ (List.suffix_refl _)), ih htail]

theorem collapseRun_id_of_collFree {s : List Char}
    (h : collFree s = true) : collapseRun s = s := by
  refine collapseRun_id fun t ht => ?_
  have := List.all_eq_true.mp h t ((List.mem_tails t s).mpr ht)
  simpa [Option.isNone_iff_eq_none] using this

/-! ### Emission lemmas: scanning past a region with no match start -/

theorem subInlineRun_append {fn x y : List Char}
    (h : ∀ t, t <:+ x → t ≠ [] → matchInline fn (t ++ y) = none) :
    subInlineRun fn (x ++ y) = x ++ subInlineRun fn y := by
  induction x with
  | nil => simp
  | cons c x' ih =>
    have hh : matchInline fn (c :: (x' ++ y)) = none := by
      simpa using h (c :: x') (List.suffix_refl _) (by simp)
    rw [List.cons_append, subInlineRun_nomatch fn hh]
    have ht : ∀ t, t <:+ x' → t ≠ [] → matchInline fn (t ++ y) = none := fun t h1 h2 =>
      h t (h1.trans (List.suffix_cons c x')) h2
    rw [ih ht, List.cons_append]

theorem subCatchRun_append {x y : List Char}
    (h : ∀ t, t <:+ x → t ≠ [] → matchCatch (t ++ y) = none) :
    subCatchRun (x ++ y) = x ++ subCatchRun y := by
  induction x with
  | nil => simp
  | cons c x' ih =>
    have hh : matchCatch (c :: (x' ++ y)) = none := by
      simpa using h (c :: x') (List.suffix_refl _) (by simp)
    rw [List.cons_append, subCatchRun_nomatch hh]
    have ht : ∀ t, t <:+ x' → t ≠ [] → matchCatch (t ++ y) = none := fun t h1 h2 =>
      h t (h1.trans (List.suffix_cons c x')) h2
    rw [ih ht, List.cons_append]

theorem collapseRun_append {x y : List Char}
    (h : ∀ t, t <:+ x → t ≠ [] → matchColl (t ++ y) = none) :
    collapseRun (x ++ y) = x ++ collapseRun y := by
  induction x with
  | nil => simp
  | cons c x' ih =>
    have hh : matchColl (c :: (x' ++ y)) = none := by
      simpa using h (c :: x') (List.suffix_refl _) (by simp)
    rw [List.cons_append, collapseRun_nomatch hh]
    have ht : ∀ t, t <:+ x' → t ≠ [] → matchColl (t ++ y) = none := fun t h1 h2 =>
      h t (h1.trans (List.suffix_cons c x')) h2
    rw [ih ht, List.cons_append]

theorem subStdRun_append {fn x y : List Char} {anch : Bool}
    (h0 : anch = true → matchStandalone fn (x ++ y) = none)
    (h : ∀ u v, x = u ++ '\n' :: v → matchStandalone fn (v ++ y) = none) :
    subStdRun fn anch (x ++ y) = x ++ subStdRun fn (anchEnd anch x) y := by
  induction x generalizing anch with
  | nil => simp [anchEnd]
  | cons c x' ih =>
    have hstep : subStdRun fn anch ((c :: x') ++ y)
        = c :: subStdRun fn (c == '\n') (x' ++ y) := by
      cases anch with
      | false => rw [List.cons_append, subStdRun_noanch]
      | true =>
        have hh : matchStandalone fn (c :: (x' ++ y)) = none := by
          simpa using h0 rfl
        rw [List.cons_append, subStdRun_nomatch fn hh]
    rw [hstep]
    have h0' : (c == '\n') = true → matchStandalone fn (x' ++ y) = none := by
      intro hc
      have : c = '\n' := by simpa using hc
      exact h [] x' (by rw [this]; rfl)
    have h' : ∀ u v, x' = u ++ '\n' :: v → matchStandalone fn (v ++ y) = none :=
      fun u v huv => h (c :: u) v (by rw [huv]; rfl)
    rw [ih h0' h']
    have : anchEnd (c == '\n') x' = anchEnd anch (c :: x') := by
      cases x' with
      | nil => by_cases hc : c = '\n' <;> simp [anchEnd, hc]
      | cons d x'' => simp [anchEnd, List.getLast?_cons]
    rw [this, List.cons_append]

/-! ### The straddle lemma: a literal whose first character does not recur
cannot begin strictly inside a literal-free region and reach a designated
occurrence. -/

theorem firstUniq_logCall : FirstUniq logCall := by unfold FirstUniq; decide

theorem firstUniq_warnCall : FirstUniq warnCall := by unfold FirstUniq; decide

theorem firstUniq_catchTok : FirstUniq catchTok := by unfold FirstUniq; decide

theorem straddle {lit x t z : List Char} (hu : FirstUniq lit)
    (hx : ¬ lit <:+: x) (ht : t <:+ x) (hne : t ≠ []) :
    ¬ lit <+: (t ++ (lit ++ z)) := by
  intro hp
  by_cases hlen : lit.length ≤ t.length
  · have he : lit = t.take lit.length := by
      have h1 := List.prefix_iff_eq_take.mp hp
      rwa [List.take_append_of_le_length hlen] at h1
    have hpt : lit <+: t := he ▸ List.take_prefix lit.length t
    exact hx (List.infix_iff_prefix_suffix.mpr ⟨t, hpt, ht⟩)
  · push_neg at hlen
    obtain ⟨r, hr⟩ := hp
    have hdr : lit.drop t.length ++ r = lit ++ z := by
      have h2 := congrArg (List.drop t.length) hr
      rwa [List.drop_append_of_le_length (le_of_lt hlen), List.drop_left] at h2
    have hp2 : lit.drop t.length <+: lit ++ z := ⟨r, hdr⟩
    have hdl : (lit.drop t.length).length ≤ lit.length := by simp
    have he : lit.drop t.length = lit.take (lit.drop t.length).length := by
      have h1 := List.prefix_iff_eq_take.mp hp2
      rwa [List.take_append_of_le_length hdl] at h1
    have hfin : lit.drop t.length <+: lit := he ▸ List.take_prefix _ lit
    exact hu t.length hlen (List.length_pos.mpr hne) hfin

/-! ### Evaluating the matchers at a designated occurrence -/

theorem stripPfx_self (p r : List Char) : stripPfx p (p ++ r) = some r :=
  stripPfx_eq_some.mpr rfl

theorem dropWhile_append_all {p : Char → Bool} {x y : List Char}
    (h : ∀ a ∈ x, p a = true) : (x ++ y).dropWhile p = y.dropWhile p := by
  induction x with
  | nil => rfl
  | cons c x' ih =>
    have hc : p c = true := h c (by simp)
    simp only [List.cons_append, List.dropWhile_cons, hc, if_true]
    exact ih fun a ha => h a (by simp [ha])

theorem takeWhile_append_all {p : Char → Bool} {x y : List Char}
    (h : ∀ a ∈ x, p a = true) : (x ++ y).takeWhile p = x ++ y.takeWhile p := by
  induction x with
  | nil => rfl
  | cons c x' ih =>
    have hc : p c = true := h c (by simp)
    simp only [List.cons_append, List.takeWhile_cons, hc, if_true]
    rw [ih fun a ha => h a (by simp [ha])]

theorem dropWhile_cons_false {p : Char → Bool} {c : Char} (cs : List Char)
    (h : p c = false) : (c :: cs).dropWhile p = c :: cs := by
  simp [List.dropWhile_cons, h]

theorem takeWhile_cons_false {p : Char → Bool} {c : Char} (cs : List Char)
    (h : p c = false) : (c :: cs).takeWhile p = [] := by
  simp [List.takeWhile_cons, h]

theorem matchInline_at {fn args tail : List Char}
    (hargs : ∀ a ∈ args, (a != ')') = true) :
    matchInline fn (fn ++ (args ++ ')' :: ';' :: tail)) = some (tail.dropWhile wsChar) := by
  have h1 : (args ++ ')' :: ';' :: tail).dropWhile (· != ')') = ')' :: ';' :: tail := by
    rw [dropWhile_append_all hargs]
    exact dropWhile_cons_false _ (by simp)
  simp only [matchInline, stripPfx_self, h1]

theorem lastNlSplit_snoc_nl (x : List Char) :
    lastNlSplit (x ++ ['\n']) = some (x, []) := by
  induction x with
  | nil => rfl
  | cons c x' ih => simp [lastNlSplit, ih]

theorem trailDollar_all {r : List Char} (h : ∀ a ∈ r, wsChar a = true) :
    trailDollar r = some [] := by
  unfold trailDollar
  have : r.dropWhile wsChar = [] := by
    have h2 := @dropWhile_append_all wsChar r [] h
    simpa using h2
  simp [this]

theorem trailDollar_mid {w2 t' : List Char} {t0 : Char}
    (hw2 : ∀ a ∈ w2, wsChar a = true) (ht0 : wsChar t0 = false) :
    trailDollar (w2 ++ '\n' :: t0 :: t') = some ('\n' :: t0 :: t') := by
  have hwn : wsChar '\n' = true := rfl
  have hd : (w2 ++ '\n' :: t0 :: t').dropWhile wsChar = t0 :: t' := by
    rw [dropWhile_append_all hw2]
    simp only [List.dropWhile_cons, hwn, if_true]
    simp [ht0]
  have htk : (w2 ++ '\n' :: t0 :: t').takeWhile wsChar = w2 ++ ['\n'] := by
    rw [takeWhile_append_all hw2]
    simp only [List.takeWhile_cons, hwn, if_true, takeWhile_cons_false _ ht0]
  unfold trailDollar
  rw [hd, htk]
  simp [lastNlSplit_snoc_nl]

theorem matchStandalone_at {fn ws1 args tail : List Char}
    (hfn : ∃ f0 fn', fn = f0 :: fn' ∧ wsChar f0 = false)
    (hws1 : ∀ a ∈ ws1, wsChar a = true)
    (hargs : ∀ a ∈ args, (a != ')') = true) :
    matchStandalone fn (ws1 ++ (fn ++ (args ++ ')' :: ';' :: tail))) = trailDollar tail := by
  obtain ⟨f0, fn', hsh, hf0⟩ := hfn
  have hd : (ws1 ++ (fn ++ (args ++ ')' :: ';' :: tail))).dropWhile wsChar
      = fn ++ (args ++ ')' :: ';' :: tail) := by
    rw [dropWhile_append_all hws1, hsh]
    exact dropWhile_cons_false _ hf0
  have h1 : (args ++ ')' :: ';' :: tail).dropWhile (· != ')') = ')' :: ';' :: tail := by
    rw [dropWhile_append_all hargs]
    exact dropWhile_cons_false _ (by simp)
  simp only [matchStandalone, hd, stripPfx_self, h1]

/-! ### Straddle consequences for each matcher -/

theorem matchInline_none_mid {fn x t z : List Char} (hu : FirstUniq fn)
    (hx : ¬ fn <:+: x) (ht : t <:+ x) (hne : t ≠ []) :
    matchInline fn (t ++ (fn ++ z)) = none :=
  matchInline_none_of (straddle hu hx ht hne)

theorem dropWhile_append_ne {p : Char → Bool} {x y d : List Char}
    (h : x.dropWhile p = d) (hne : d ≠ []) :
    (x ++ y).dropWhile p = d ++ y := by
  induction x with
  | nil =>
    simp only [List.dropWhile_nil] at h
    exact absurd h.symm hne
  | cons c x' ih =>
    by_cases hc : p c = true
    · rw [List.dropWhile_cons, if_pos hc] at h
      rw [List.cons_append, List.dropWhile_cons, if_pos hc]
      exact ih h
    · rw [List.dropWhile_cons, if_neg hc] at h
      subst h
      rw [List.cons_append, List.dropWhile_cons, if_neg hc]

theorem matchStandalone_none_mid {fn x t z : List Char} (hu : FirstUniq fn)
    (hx : ¬ fn <:+: x) (ht : t <:+ x) (hnws : t.dropWhile wsChar ≠ []) :
    matchStandalone fn (t ++ (fn ++ z)) = none := by
  apply matchStandalone_none_of
  rw [dropWhile_append_ne rfl hnws]
  have hsuf : t.dropWhile wsChar <:+ x := (dropWhile_suffix wsChar t).trans ht
  exact straddle hu hx hsuf hnws

/-! ### Evaluating the `.catch` matcher at a designated occurrence -/

theorem catchSearch_append_some {x y v : List Char}
    (hx : ∀ a ∈ x, a ≠ ')') (hy : catchSearch y = some v) :
    catchSearch (x ++ y) = some v := by
  induction x with
  | nil => simpa using hy
  | cons c x' ih =>
    have hc : c ≠ ')' := hx c (by simp)
    have hih := ih fun a ha => hx a (by simp [ha])
    rw [List.cons_append]
    unfold catchSearch
    simp only [hc, if_false, hih]

theorem catchSearchFail {x w : List Char}
    (hx : ∀ a ∈ x, a ≠ ')')
    (h : ∀ t, t <:+ x → ¬ logCall <+: (t ++ ')' :: w)) :
    catchSearch (x ++ ')' :: w) = none := by
  induction x with
  | nil => simp [catchSearch]
  | cons c x' ih =>
    have hc : c ≠ ')' := hx c (by simp)
    have hih := ih (fun a ha => hx a (by simp [ha]))
      (fun t ht => h t (ht.trans (List.suffix_cons c x')))
    have hsp : stripPfx logCall ((c :: x') ++ ')' :: w) = none :=
      stripPfx_eq_none.mpr (h (c :: x') (List.suffix_refl _))
    rw [List.cons_append]
    unfold catchSearch
    simp only [hc, if_false, hih]
    rw [← List.cons_append, hsp]

theorem lit_not_pfx_paren {lit x t w : List Char}
    (hnp : ')' ∉ lit) (hx : ¬ lit <:+: x) (ht : t <:+ x) :
    ¬ lit <+: (t ++ ')' :: w) := by
  intro hp
  by_cases hlen : lit.length ≤ t.length
  · have he : lit = t.take lit.length := by
      have h1 := List.prefix_iff_eq_take.mp hp
      rwa [List.take_append_of_le_length hlen] at h1
    have hpt : lit <+: t := he ▸ List.take_prefix lit.length t
    exact hx (List.infix_iff_prefix_suffix.mpr ⟨t, hpt, ht⟩)
  · push_neg at hlen
    obtain ⟨r, hr⟩ := hp
    have hdr : lit.drop t.length ++ r = ')' :: w := by
      have h2 := congrArg (List.drop t.length) hr
      rwa [List.drop_append_of_le_length (le_of_lt hlen), List.drop_left] at h2
    have hdne : lit.drop t.length ≠ [] := by
      have hlen2 : (lit.drop t.length).length = lit.length - t.length := by simp
      intro hnil
      rw [hnil] at hlen2
      simp at hlen2
      omega
    obtain ⟨e, es, hes⟩ := List.exists_cons_of_ne_nil hdne
    have he : e = ')' := by
      rw [hes] at hdr
      simpa using congrArg List.head? hdr
    have : e ∈ lit := by
      have : e ∈ lit.drop t.length := by rw [hes]; simp
      exact List.drop_subset _ _ this
    rw [he] at this
    exact hnp this

theorem catchTail_at {b2 b3 post : List Char}
    (hb2 : ∀ a ∈ b2, (a != ')') = true) (hb3 : ∀ a ∈ b3, (a != ')') = true) :
    catchTail (b2 ++ ')' :: (b3 ++ ')' :: post)) = some post := by
  have h1 : (b2 ++ ')' :: (b3 ++ ')' :: post)).dropWhile (· != ')')
      = ')' :: (b3 ++ ')' :: post) := by
    rw [dropWhile_append_all hb2]
    exact dropWhile_cons_false _ (by simp)
  have h2 : (b3 ++ ')' :: post).dropWhile (· != ')') = ')' :: post := by
    rw [dropWhile_append_all hb3]
    exact dropWhile_cons_false _ (by simp)
  simp only [catchTail, h1, h2]

theorem logCall_no_paren : ')' ∉ logCall := by decide

theorem logCall_drop_one_no_paren : ∀ a ∈ logCall.drop 1, a ≠ ')' := by decide

theorem catchSearch_at {b1 b2 b3 post : List Char}
    (hb1 : ∀ a ∈ b1, a ≠ ')')
    (hb2 : ∀ a ∈ b2, a ≠ ')')
    (hb3 : ∀ a ∈ b3, a ≠ ')')
    (hocc : ¬ logCall <:+: (logCall.drop 1 ++ b2)) :
    catchSearch (b1 ++ (logCall ++ (b2 ++ ')' :: (b3 ++ ')' :: post)))) = some post := by
  have hb2' : ∀ a ∈ b2, (a != ')') = true := by
    intro a ha; simpa using hb2 a ha
  have hb3' : ∀ a ∈ b3, (a != ')') = true := by
    intro a ha; simpa using hb3 a ha
  apply catchSearch_append_some hb1
  have hlog : logCall = 'c' :: logCall.drop 1 := by decide
  rw [hlog, List.cons_append]
  unfold catchSearch
  have hdeep : catchSearch (logCall.drop 1 ++ (b2 ++ ')' :: (b3 ++ ')' :: post))) = none := by
    have hx : ∀ a ∈ logCall.drop 1 ++ b2, a ≠ ')' := by
      intro a ha
      rcases List.mem_append.mp ha with h | h
      · exact logCall_drop_one_no_paren a h
      · exact hb2 a h
    have hmid : ∀ t, t <:+ (logCall.drop 1 ++ b2) →
        ¬ logCall <+: (t ++ ')' :: (b3 ++ ')' :: post)) := by
      intro t ht
      exact lit_not_pfx_paren logCall_no_paren hocc ht
    have := catchSearchFail hx hmid
    rwa [List.append_assoc] at this
  simp only [show ('c' = ')') = False by simp, if_false, hdeep]
  have hsp : stripPfx logCall ('c' :: (logCall.drop 1 ++ (b2 ++ ')' :: (b3 ++ ')' :: post))))
      = some (b2 ++ ')' :: (b3 ++ ')' :: post)) := by
    rw [← List.cons_append, ← hlog]
    exact stripPfx_self _ _
  rw [hsp]
  exact catchTail_at hb2' hb3'

theorem matchCatch_at {b1 b2 b3 post : List Char}
    (hb1 : ∀ a ∈ b1, a ≠ ')')
    (hb2 : ∀ a ∈ b2, a ≠ ')')
    (hb3 : ∀ a ∈ b3, a ≠ ')')
    (hocc : ¬ logCall <:+: (logCall.drop 1 ++ b2)) :
    matchCatch (catchTok ++ (b1 ++ (logCall ++ (b2 ++ ')' :: (b3 ++ ')' :: post)))))
      = some post := by
  unfold matchCatch
  rw [stripPfx_self]
  exact catchSearch_at hb1 hb2 hb3 hocc

theorem matchCatch_some_pfx {s r : List Char}
    (h : matchCatch s = some r) : catchTok <+: s := by
  unfold matchCatch at h
  split at h
  · exact absurd h (by simp)
  · rename_i t hst
    exact ⟨t, (stripPfx_eq_some.mp hst).symm⟩

theorem matchCatch_none_mid {x t z : List Char}
    (hx : ¬ catchTok <:+: x) (ht : t <:+ x) (hne : t ≠ []) :
    matchCatch (t ++ (catchTok ++ z)) = none := by
  cases hm : matchCatch (t ++ (catchTok ++ z)) with
  | none => rfl
  | some r =>
    exact absurd (matchCatch_some_pfx hm) (straddle firstUniq_catchTok hx ht hne)

/-! ### Facts about splitting and joining lines -/

theorem splitOnNl_ne_nil (s : List Char) : splitOnNl s ≠ [] := by
  induction s with
  | nil => simp [splitOnNl]
  | cons c cs ih =>
    unfold splitOnNl
    by_cases hc : c = '\n'
    · simp [hc]
    · simp only [hc, if_false]
      cases hs : splitOnNl cs with
      | nil => simp
      | cons l ls => simp

theorem joinNl_cons {l : List Char} {ls : List (List Char)} (h : ls ≠ []) :
    joinNl (l :: ls) = l ++ '\n' :: joinNl ls := by
  cases ls with
  | nil => exact absurd rfl h
  | cons m ms => rfl

theorem joinNl_splitOnNl (s : List Char) : joinNl (splitOnNl s) = s := by
  induction s with
  | nil => rfl
  | cons c cs ih =>
    unfold splitOnNl
    by_cases hc : c = '\n'
    · subst hc
      simp only [if_true]
      rw [joinNl_cons (splitOnNl_ne_nil cs)]
      simp [ih]
    · simp only [hc, if_false]
      cases hs : splitOnNl cs with
      | nil => exact absurd hs (splitOnNl_ne_nil cs)
      | cons l ls =>
        rw [hs] at ih
        cases ls with
        | nil =>
          simp only [joinNl] at ih ⊢
          simp [ih]
        | cons m ms =>
          rw [joinNl_cons (by simp)] at ih ⊢
          simp only [List.cons_append, List.cons.injEq]
          exact ⟨trivial, ih⟩

theorem splitOnNl_no_nl {l : List Char} (h : '\n' ∉ l) : splitOnNl l = [l] := by
  induction l with
  | nil => rfl
  | cons c cs ih =>
    have hc : c ≠ '\n' := fun he => h (he ▸ List.mem_cons_self c cs)
    unfold splitOnNl
    simp only [hc, if_false]
    rw [ih fun hm => h (List.mem_cons_of_mem c hm)]

theorem splitOnNl_append {l rest : List Char} (h : '\n' ∉ l) :
    splitOnNl (l ++ '\n' :: rest) = l :: splitOnNl rest := by
  induction l with
  | nil => simp [splitOnNl]
  | cons c cs ih =>
    have hc : c ≠ '\n' := fun he => h (he ▸ List.mem_cons_self c cs)
    have ih' := ih fun hm => h (List.mem_cons_of_mem c hm)
    rw [List.cons_append]
    conv_lhs => unfold splitOnNl
    simp only [hc, if_false]
    rw [ih']

theorem splitOnNl_joinNl {ls : List (List Char)} (hne : ls ≠ [])
    (h : ∀ l ∈ ls, '\n' ∉ l) : splitOnNl (joinNl ls) = ls := by
  induction ls with
  | nil => exact absurd rfl hne
  | cons l ms ih =>
    cases ms with
    | nil => exact splitOnNl_no_nl (h l (by simp))
    | cons m ms' =>
      rw [joinNl_cons (by simp), splitOnNl_append (h l (by simp))]
      rw [ih (by simp) fun x hx => h x (List.mem_cons_of_mem l hx)]

theorem mem_joinNl_inf {l : List Char} {ls : List (List Char)}
    (h : l ∈ ls) : l <:+: joinNl ls := by
  induction ls with
  | nil => simp at h
  | cons m ms ih =>
    rcases List.mem_cons.mp h with he | hm
    · subst he
      cases ms with
      | nil => exact List.infix_refl l
      | cons a as =>
        rw [joinNl_cons (by simp)]
        exact ⟨[], '\n' :: joinNl (a :: as), by simp⟩
    · cases ms with
      | nil => simp at hm
      | cons a as =>
        rw [joinNl_cons (by simp)]
        have hsf : joinNl (a :: as) <:+ m ++ '\n' :: joinNl (a :: as) :=
          ⟨m ++ ['\n'], by simp⟩
        exact (ih hm).trans hsf.isInfix

theorem mem_splitOnNl_inf {l s : List Char} (h : l ∈ splitOnNl s) :
    l <:+: s := by
  have := mem_joinNl_inf h
  rwa [joinNl_splitOnNl] at this

theorem containsTok_iff {pat l : List Char} :
    containsTok pat l = true ↔ pat <:+: l := by
  unfold containsTok
  rw [List.any_eq_true]
  constructor
  · rintro ⟨t, ht, hp⟩
    exact List.infix_iff_prefix_suffix.mpr
      ⟨t, List.isPrefixOf_iff_prefix.mp hp, (List.mem_tails t l).mp ht⟩
  · intro h
    obtain ⟨t, hp, hs⟩ := List.infix_iff_prefix_suffix.mp h
    exact ⟨t, (List.mem_tails t l).mpr hs, List.isPrefixOf_iff_prefix.mpr hp⟩

theorem containsTok_false {pat l : List Char} (h : ¬ pat <:+: l) :
    containsTok pat l = false := by
  rw [← Bool.not_eq_true, containsTok_iff]
  exact h

/-! ### Facts about `strip` and the per-line loop -/

theorem stripWs_eq {w1 w2 x : List Char}
    (hw1 : ∀ a ∈ w1, wsChar a = true) (hw2 : ∀ a ∈ w2, wsChar a = true)
    (hd : ∃ d m, x = d :: m ∧ wsChar d = false)
    (he : ∃ e m', x = m' ++ [e] ∧ wsChar e = false) :
    stripWs (w1 ++ (x ++ w2)) = x := by
  obtain ⟨d, m, hx, hdws⟩ := hd
  obtain ⟨e, m', hx', hews⟩ := he
  unfold stripWs
  have h1 : (w1 ++ (x ++ w2)).dropWhile wsChar = x ++ w2 := by
    rw [dropWhile_append_all hw1, hx, List.cons_append]
    rw [← List.cons_append, ← hx]
    rw [hx, List.cons_append, dropWhile_cons_false _ hdws, ← List.cons_append, ← hx]
  rw [h1]
  have h2 : (x ++ w2).reverse.dropWhile wsChar = x.reverse := by
    rw [List.reverse_append]
    rw [dropWhile_append_all (by intro a ha; exact hw2 a (List.mem_reverse.mp ha))]
    rw [hx', List.reverse_append]
    simp only [List.reverse_singleton, List.singleton_append]
    exact dropWhile_cons_false _ hews
  rw [h2, List.reverse_reverse]

theorem not_pfx_head {a b : Char} {ps ss : List Char} (h : a ≠ b) :
    ¬ (a :: ps <+: b :: ss) := by
  intro ⟨r, hr⟩
  simp only [List.cons_append, List.cons.injEq] at hr
  exact h hr.1

theorem isPrefixOf_false_of_ne {a b : Char} {ps ss : List Char} (h : a ≠ b) :
    (a :: ps).isPrefixOf (b :: ss) = false := by
  rw [← Bool.not_eq_true, List.isPrefixOf_iff_prefix]
  exact not_pfx_head h

theorem cleanLines_cons_keep {l : List Char} {ls : List (List Char)}
    (h1 : containsTok logCall l = false) (h2 : containsTok warnCall l = false) :
    cleanLines (l :: ls) = l :: cleanLines ls := by
  conv_lhs => unfold cleanLines
  simp [h1, h2]

theorem cleanLines_cons_skip {l : List Char} {ls : List (List Char)}
    (hc : (containsTok logCall l || containsTok warnCall l) = true)
    (hs : (logCall.isPrefixOf (stripWs l) || warnCall.isPrefixOf (stripWs l)) = true) :
    cleanLines (l :: ls) = cleanLines ls := by
  conv_lhs => unfold cleanLines
  simp only [hc, if_true]
  rcases Bool.or_eq_true_iff.mp hs with h | h <;>
    simp [List.isPrefixOf_iff_prefix.mp h]

theorem cleanLines_cons_inline {l : List Char} {ls : List (List Char)}
    (hc : (containsTok logCall l || containsTok warnCall l) = true)
    (hs : (logCall.isPrefixOf (stripWs l) || warnCall.isPrefixOf (stripWs l)) = false)
    (hne : (stripWs (subInlineRun warnCall (subInlineRun logCall l))).isEmpty = false) :
    cleanLines (l :: ls) = subInlineRun warnCall (subInlineRun logCall l) :: cleanLines ls := by
  conv_lhs => unfold cleanLines
  simp only [hc, if_true]
  rw [if_neg (by simp [hs])]
  simp [hne]

/-! ### Additional support lemmas -/

theorem cleanLines_cons_inline_drop {l : List Char} {ls : List (List Char)}
    (hc : (containsTok logCall l || containsTok warnCall l) = true)
    (hs : (logCall.isPrefixOf (stripWs l) || warnCall.isPrefixOf (stripWs l)) = false)
    (hemp : (stripWs (subInlineRun warnCall (subInlineRun logCall l))).isEmpty = true) :
    cleanLines (l :: ls) = cleanLines ls := by
  conv_lhs => unfold cleanLines
  simp only [hc, if_true]
  rw [if_neg (by simp [hs])]
  simp only [List.isEmpty_iff] at hemp
  simp [hemp]

theorem cleanLines_cons_split (l : List Char) (ls : List (List Char)) :
    cleanLines (l :: ls) = cleanLines [l] ++ cleanLines ls := by
  by_cases h1 : (containsTok logCall l || containsTok warnCall l) = true
  · by_cases h2 : (logCall.isPrefixOf (stripWs l) || warnCall.isPrefixOf (stripWs l)) = true
    · rw [cleanLines_cons_skip h1 h2, @cleanLines_cons_skip l [] h1 h2]
      rfl
    · have h2' : (logCall.isPrefixOf (stripWs l) || warnCall.isPrefixOf (stripWs l)) = false :=
        Bool.eq_false_iff.mpr h2
      by_cases h3 : (stripWs (subInlineRun warnCall (subInlineRun logCall l))).isEmpty = true
      · rw [cleanLines_cons_inline_drop h1 h2' h3, @cleanLines_cons_inline_drop l [] h1 h2' h3]
        rfl
      · have h3' := Bool.eq_false_iff.mpr h3
        rw [cleanLines_cons_inline h1 h2' h3', @cleanLines_cons_inline l [] h1 h2' h3']
        rfl
  · have hl : containsTok logCall l = false := by
      cases h : containsTok logCall l
      · rfl
      · exact absurd (by simp [h]) h1
    have hw : containsTok warnCall l = false := by
      cases h : containsTok warnCall l
      · rfl
      · exact absurd (by simp [h]) h1
    rw [cleanLines_cons_keep hl hw, @cleanLines_cons_keep l [] hl hw]
    rfl

theorem cleanLines_append (xs ys : List (List Char)) :
    cleanLines (xs ++ ys) = cleanLines xs ++ cleanLines ys := by
  induction xs with
  | nil => rfl
  | cons l ls ih =>
    rw [List.cons_append, cleanLines_cons_split l (ls ++ ys), ih,
      cleanLines_cons_split l ls, List.append_assoc]

theorem cleanLines_mem_of {l : List Char} {ls : List (List Char)}
    (hm : l ∈ ls) (h1 : containsTok logCall l = false)
    (h2 : containsTok warnCall l = false) : l ∈ cleanLines ls := by
  induction ls with
  | nil => simp at hm
  | cons m ms ih =>
    rw [cleanLines_cons_split]
    rcases List.mem_cons.mp hm with he | hmem
    · subst he
      rw [cleanLines_cons_keep h1 h2]
      simp
    · exact List.mem_append_right _ (ih hmem)

theorem splitOnNl_mem_no_nl {l s : List Char} (h : l ∈ splitOnNl s) : '\n' ∉ l := by
  induction s generalizing l with
  | nil =>
    simp only [splitOnNl, List.mem_singleton] at h
    subst h; simp
  | cons c cs ih =>
    unfold splitOnNl at h
    by_cases hc : c = '\n'
    · simp only [hc, if_true, List.mem_cons] at h
      rcases h with he | hm
      · subst he; simp
      · exact ih hm
    · simp only [hc, if_false] at h
      cases hs : splitOnNl cs with
      | nil => exact absurd hs (splitOnNl_ne_nil cs)
      | cons m ms =>
        rw [hs] at h
        rcases List.mem_cons.mp h with he | hm
        · subst he
          intro hmem
          rcases List.mem_cons.mp hmem with he2 | hm2
          · exact hc he2.symm
          · exact ih (hs ▸ List.mem_cons_self m ms) hm2
        · exact ih (hs ▸ List.mem_cons_of_mem m hm)

theorem matchInline_some_suffix {fn s r : List Char}
    (h : matchInline fn s = some r) : r <:+ s := by
  unfold matchInline at h
  split at h
  · exact absurd h (by simp)
  · rename_i r1 h1
    split at h
    · rename_i r3 heq
      simp only [Option.some.injEq] at h
      subst h
      have hs1 : r1 <:+ s := ⟨fn, (stripPfx_eq_some.mp h1).symm⟩
      have hs2 : ')' :: ';' :: r3 <:+ r1 := heq ▸ dropWhile_suffix _ r1
      have hs3 : r3.dropWhile wsChar <:+ r3 := dropWhile_suffix _ r3
      have hs4 : r3 <:+ ')' :: ';' :: r3 := ⟨[')', ';'], rfl⟩
      exact ((hs3.trans hs4).trans hs2).trans hs1
    · exact absurd h (by simp)

theorem subInlineFuel_subset {fn : List Char} {a : Char} :
    ∀ (fuel : Nat) (s : List Char), a ∈ subInlineFuel fn fuel s → a ∈ s := by
  intro fuel
  induction fuel with
  | zero =>
    intro s h
    cases s with
    | nil => simp [subInlineFuel] at h
    | cons c cs => simpa [subInlineFuel] using h
  | succ f ih =>
    intro s h
    cases s with
    | nil => simp [subInlineFuel] at h
    | cons c cs =>
      simp only [subInlineFuel] at h
      cases hm : matchInline fn (c :: cs) with
      | some r =>
        rw [hm] at h
        exact (matchInline_some_suffix hm).subset (ih r h)
      | none =>
        rw [hm] at h
        rcases List.mem_cons.mp h with he | hmem
        · subst he; simp
        · exact List.mem_cons_of_mem c (ih cs hmem)

theorem subInlineRun_subset {fn s : List Char} {a : Char}
    (h : a ∈ subInlineRun fn s) : a ∈ s :=
  subInlineFuel_subset s.length s h

theorem subStdRun_false_no_nl {fn s : List Char} (h : '\n' ∉ s) :
    subStdRun fn false s = s := by
  induction s with
  | nil => rfl
  | cons c cs ih =>
    rw [subStdRun_noanch]
    have hc : (c == '\n') = false := by
      simp only [beq_eq_false_iff_ne, ne_eq]
      intro he
      exact h (he ▸ List.mem_cons_self c cs)
    rw [hc, ih fun hm => h (List.mem_cons_of_mem c hm)]

theorem subStdRun_id_no_anchor {fn s : List Char}
    (h0 : matchStandalone fn s = none) (hnl : '\n' ∉ s) :
    subStdRun fn true s = s := by
  cases s with
  | nil => rfl
  | cons c cs =>
    rw [subStdRun_nomatch fn h0]
    have hc : (c == '\n') = false := by
      simp only [beq_eq_false_iff_ne, ne_eq]
      intro he
      exact hnl (he ▸ List.mem_cons_self c cs)
    rw [hc, subStdRun_false_no_nl fun hm => hnl (List.mem_cons_of_mem c hm)]

theorem matchInline_some_semi {fn s r : List Char}
    (h : matchInline fn s = some r) : ';' ∈ s := by
  unfold matchInline at h
  split at h
  · exact absurd h (by simp)
  · rename_i r1 h1
    split at h
    · rename_i r3 heq
      have hs1 : r1 <:+ s := ⟨fn, (stripPfx_eq_some.mp h1).symm⟩
      have hs2 : ')' :: ';' :: r3 <:+ r1 := heq ▸ dropWhile_suffix _ r1
      exact hs1.subset (hs2.subset (by simp))
    · exact absurd h (by simp)

theorem matchStandalone_some_semi {fn s r : List Char}
    (h : matchStandalone fn s = some r) : ';' ∈ s := by
  unfold matchStandalone at h
  split at h
  · exact absurd h (by simp)
  · rename_i r1 h1
    split at h
    · rename_i r3 heq
      have hs0 : s.dropWhile wsChar <:+ s := dropWhile_suffix _ s
      have hs1 : r1 <:+ s.dropWhile wsChar := ⟨fn, (stripPfx_eq_some.mp h1).symm⟩
      have hs2 : ')' :: ';' :: r3 <:+ r1 := heq ▸ dropWhile_suffix _ r1
      exact hs0.subset (hs1.subset (hs2.subset (by simp)))
    · exact absurd h (by simp)

theorem subStdRun_id_no_semi {fn s : List Char} (h : ';' ∉ s) (anch : Bool) :
    subStdRun fn anch s = s := by
  refine subStdRun_id (fun t ht => ?_) anch
  cases hm : matchStandalone fn t with
  | none => rfl
  | some r => exact absurd (ht.subset (matchStandalone_some_semi hm)) h

theorem subInlineRun_id_no_semi {fn s : List Char} (h : ';' ∉ s) :
    subInlineRun fn s = s := by
  refine subInlineRun_id fun t ht => ?_
  cases hm : matchInline fn t with
  | none => rfl
  | some r => exact absurd (ht.subset (matchInline_some_semi hm)) h

theorem stdAnchAfter_append (x r : List Char) :
    stdAnchAfter (x ++ r) r = decide (x.getLast? = some '\n') := by
  unfold stdAnchAfter
  have h1 : (x ++ r).length - r.length = x.length := by simp
  rw [h1, List.take_left]

theorem matchColl_cons_ne {c : Char} (cs : List Char) (h : c ≠ '\n') :
    matchColl (c :: cs) = none := by
  unfold matchColl
  simp [h]

theorem lastNlSplit_replicate (n : Nat) :
    lastNlSplit (List.replicate (n + 1) '\n') = some (List.replicate n '\n', []) := by
  rw [List.replicate_succ']
  exact lastNlSplit_snoc_nl _

theorem stripWs_cons_head {d : Char} {rest : List Char} (hd : wsChar d = false) :
    ∃ m, stripWs (d :: rest) = d :: m := by
  unfold stripWs
  rw [dropWhile_cons_false _ hd]
  have : ∃ y, (d :: rest).reverse.dropWhile wsChar = y ++ [d] := by
    rw [List.reverse_cons]
    cases hy : rest.reverse.dropWhile wsChar with
    | nil =>
      refine ⟨[], ?_⟩
      have hall : ∀ a ∈ rest.reverse, wsChar a = true :=
        List.dropWhile_eq_nil_iff.mp hy
      rw [dropWhile_append_all hall]
      simp [dropWhile_cons_false _ hd]
    | cons e es =>
      refine ⟨e :: es, ?_⟩
      exact dropWhile_append_ne hy (by simp)
  obtain ⟨y, hy⟩ := this
  rw [hy]
  exact ⟨y.reverse, by simp⟩

/-! ### Composite no-op lemmas for the two pipelines -/

theorem remove_id {s : List Char}
    (h1 : ¬ logCall <:+: s) (h2 : ¬ warnCall <:+: s) (h3 : collFree s = true) :
    remove_console_statements s = s := by
  unfold remove_console_statements
  rw [subStdRun_id_absent h1, subStdRun_id_absent h2,
    subInlineRun_id_absent h1, subInlineRun_id_absent h2,
    subCatchRun_id_absent h1, collapseRun_id_of_collFree h3]

theorem clean_keep_all {ls : List (List Char)}
    (h : ∀ l ∈ ls, containsTok logCall l = false ∧ containsTok warnCall l = false) :
    cleanLines ls = ls := by
  induction ls with
  | nil => rfl
  | cons m ms ih =>
    rw [cleanLines_cons_keep (h m (by simp)).1 (h m (by simp)).2,
      ih fun l hl => h l (List.mem_cons_of_mem m hl)]

theorem clean_id {s : List Char}
    (h1 : ¬ logCall <:+: s) (h2 : ¬ warnCall <:+: s) :
    clean_console_statements s = s := by
  unfold clean_console_statements
  rw [clean_keep_all fun l hl =>
    ⟨containsTok_false fun hi => h1 (hi.trans (mem_splitOnNl_inf hl)),
     containsTok_false fun hi => h2 (hi.trans (mem_splitOnNl_inf hl))⟩]
  exact joinNl_splitOnNl s

theorem infix_cons_elim {lit : List Char} {c : Char} {s : List Char}
    (h : lit <:+: c :: s) (hhead : ∀ m, lit ≠ c :: m) : lit <:+: s := by
  rcases List.infix_cons_iff.mp h with hp | hi
  · obtain ⟨r, hr⟩ := hp
    cases lit with
    | nil => exact ⟨[], s, by simp⟩
    | cons a as =>
      simp only [List.cons_append, List.cons.injEq] at hr
      exact absurd (by rw [hr.1]) (hhead as)
  · exact hi

/-! ### Shape-generalized match-step lemmas -/

theorem subInlineRun_match' {fn s r : List Char} (hne : s ≠ [])
    (hm : matchInline fn s = some r) :
    subInlineRun fn s = subInlineRun fn r := by
  obtain ⟨c, cs, rfl⟩ := List.exists_cons_of_ne_nil hne
  exact subInlineRun_match fn hm

theorem subCatchRun_match' {s r : List Char} (hne : s ≠ [])
    (hm : matchCatch s = some r) :
    subCatchRun s = catchRepl ++ subCatchRun r := by
  obtain ⟨c, cs, rfl⟩ := List.exists_cons_of_ne_nil hne
  exact subCatchRun_match hm

theorem subStdRun_match' {fn s r : List Char} (hne : s ≠ [])
    (hm : matchStandalone fn s = some r) :
    subStdRun fn true s = subStdRun fn (stdAnchAfter s r) r := by
  obtain ⟨c, cs, rfl⟩ := List.exists_cons_of_ne_nil hne
  exact subStdRun_match fn hm

theorem subStdRun_id_anchored {fn s : List Char}
    (h0 : matchStandalone fn s = none)
    (hm : ∀ u v, s = u ++ '\n' :: v → matchStandalone fn v = none) :
    subStdRun fn true s = s := by
  have h := @subStdRun_append fn s [] true
    (fun _ => by simpa using h0)
    (fun u v huv => by
      have := hm u v (by simpa using huv)
      simpa using this)
  rw [List.append_nil] at h
  rw [h, subStdRun_nil, List.append_nil]

theorem matchStandalone_none_head {fn : List Char} {d : Char} {rest : List Char}
    (hd : wsChar d = false) (hne : fn ≠ []) (hhd : ∀ m, fn ≠ d :: m) :
    matchStandalone fn (d :: rest) = none := by
  apply matchStandalone_none_of
  rw [dropWhile_cons_false _ hd]
  intro hp
  cases fn with
  | nil => exact hne rfl
  | cons f fs =>
    obtain ⟨r, hr⟩ := hp
    simp only [List.cons_append, List.cons.injEq] at hr
    exact hhd fs (by rw [hr.1])

/-- Core lemma: the two inline passes excise a targeted call (with its
terminator and trailing whitespace) embedded after other content. -/
theorem inline_excise {fn : List Char} {d : Char} {pre args post : List Char}
    (hfn : fn = logCall ∨ fn = warnCall)
    (hpre : ¬ fn <:+: (d :: pre))
    (hargs : ∀ a ∈ args, (a != ')') = true)
    (hpost : ¬ fn <:+: post)
    (hTlog : fn = warnCall →
      ¬ logCall <:+: (d :: (pre ++ (fn ++ (args ++ ')' :: ';' :: post)))))
    (hR2 : ¬ warnCall <:+: (d :: (pre ++ post.dropWhile wsChar))) :
    subInlineRun warnCall (subInlineRun logCall
        (d :: (pre ++ (fn ++ (args ++ ')' :: ';' :: post)))))
      = d :: (pre ++ post.dropWhile wsChar) := by
  have hu : FirstUniq fn := by
    rcases hfn with h | h <;> rw [h]
    · exact firstUniq_logCall
    · exact firstUniq_warnCall
  have hfne : fn ≠ [] := by
    rcases hfn with h | h <;> rw [h] <;> decide
  have hmain : subInlineRun fn (d :: (pre ++ (fn ++ (args ++ ')' :: ';' :: post))))
      = d :: (pre ++ post.dropWhile wsChar) := by
    have hT : d :: (pre ++ (fn ++ (args ++ ')' :: ';' :: post)))
        = (d :: pre) ++ (fn ++ (args ++ ')' :: ';' :: post)) := by simp
    rw [hT]
    rw [subInlineRun_append (fun t ht hne => matchInline_none_mid hu hpre ht hne)]
    rw [subInlineRun_match' (by simp [hfne]) (matchInline_at hargs)]
    rw [subInlineRun_id_absent
      (fun hi => hpost (hi.trans (dropWhile_suffix wsChar post).isInfix))]
    simp
  rcases hfn with h | h
  · rw [h] at hmain ⊢
    rw [hmain, subInlineRun_id_absent hR2]
  · rw [h] at hmain hTlog ⊢
    rw [subInlineRun_id_absent (hTlog rfl), hmain]

/-- Full `remove_console.py` pipeline on a text consisting of other content
followed by a targeted inline call: the call, its terminator and all
following whitespace are excised, everything else is kept. -/
theorem remove_inline_family {fn : List Char} {d : Char} {pre args post : List Char}
    (hfn : fn = logCall ∨ fn = warnCall)
    (hdws : wsChar d = false) (hdc : d ≠ 'c')
    (hanch : ∀ u v, (d :: (pre ++ (fn ++ (args ++ ')' :: ';' :: post)))) = u ++ '\n' :: v →
      matchStandalone logCall v = none ∧ matchStandalone warnCall v = none)
    (hpre : ¬ fn <:+: (d :: pre))
    (hargs : ∀ a ∈ args, (a != ')') = true)
    (hpost : ¬ fn <:+: post)
    (hTlog : fn = warnCall →
      ¬ logCall <:+: (d :: (pre ++ (fn ++ (args ++ ')' :: ';' :: post)))))
    (hR1 : ¬ logCall <:+: (d :: (pre ++ post.dropWhile wsChar)))
    (hR2 : ¬ warnCall <:+: (d :: (pre ++ post.dropWhile wsChar)))
    (hRcoll : collFree (d :: (pre ++ post.dropWhile wsChar)) = true) :
    remove_console_statements (d :: (pre ++ (fn ++ (args ++ ')' :: ';' :: post))))
      = d :: (pre ++ post.dropWhile wsChar) := by
  unfold remove_console_statements
  have hstd : ∀ g : List Char, g = logCall ∨ g = warnCall →
      subStdRun g true (d :: (pre ++ (fn ++ (args ++ ')' :: ';' :: post))))
        = d :: (pre ++ (fn ++ (args ++ ')' :: ';' :: post))) := by
    intro g hg
    apply subStdRun_id_anchored
    · refine matchStandalone_none_head hdws ?_ ?_
      · rcases hg with h | h <;> rw [h] <;> decide
      · intro m hm
        rcases hg with h | h <;> rw [h] at hm
        · have h2 : logCall.head? = some d := by rw [hm]; rfl
          have h3 : logCall.head? = some 'c' := by decide
          rw [h3] at h2
          exact hdc (Option.some.inj h2).symm
        · have h2 : warnCall.head? = some d := by rw [hm]; rfl
          have h3 : warnCall.head? = some 'c' := by decide
          rw [h3] at h2
          exact hdc (Option.some.inj h2).symm
    · intro u v huv
      rcases hg with h | h <;> rw [h]
      · exact (hanch u v huv).1
      · exact (hanch u v huv).2
  rw [hstd logCall (Or.inl rfl), hstd warnCall (Or.inr rfl)]
  rw [inline_excise hfn hpre hargs hpost hTlog hR2]
  rw [subCatchRun_id_absent hR1, collapseRun_id_of_collFree hRcoll]

theorem logCall_cons : logCall = 'c' :: "onsole.log(".data := by decide

theorem warnCall_cons : warnCall = 'c' :: "onsole.warn(".data := by decide

/-- `clean_console.py` on a single line holding other content before a
targeted inline call: the call is excised, the rest of the line is kept. -/
theorem clean_inline_family {fn : List Char} {d : Char} {pre args post : List Char}
    (hfn : fn = logCall ∨ fn = warnCall)
    (hdws : wsChar d = false) (hdc : d ≠ 'c')
    (hnl : '\n' ∉ (d :: (pre ++ (fn ++ (args ++ ')' :: ';' :: post)))))
    (hpre : ¬ fn <:+: (d :: pre))
    (hargs : ∀ a ∈ args, (a != ')') = true)
    (hpost : ¬ fn <:+: post)
    (hTlog : fn = warnCall →
      ¬ logCall <:+: (d :: (pre ++ (fn ++ (args ++ ')' :: ';' :: post)))))
    (hR2 : ¬ warnCall <:+: (d :: (pre ++ post.dropWhile wsChar))) :
    clean_console_statements (d :: (pre ++ (fn ++ (args ++ ')' :: ';' :: post))))
      = d :: (pre ++ post.dropWhile wsChar) := by
  unfold clean_console_statements
  rw [splitOnNl_no_nl hnl]
  have hinf : fn <:+: (d :: (pre ++ (fn ++ (args ++ ')' :: ';' :: post)))) :=
    ⟨d :: pre, args ++ ')' :: ';' :: post, by simp⟩
  have hc : (containsTok logCall (d :: (pre ++ (fn ++ (args ++ ')' :: ';' :: post)))) ||
      containsTok warnCall (d :: (pre ++ (fn ++ (args ++ ')' :: ';' :: post))))) = true := by
    rcases hfn with h | h <;> rw [← h]
    · rw [containsTok_iff.mpr hinf]
      simp
    · rw [containsTok_iff.mpr hinf]
      simp
  obtain ⟨m, hsw⟩ := @stripWs_cons_head d (pre ++ (fn ++ (args ++ ')' :: ';' :: post))) hdws
  have hcd : 'c' ≠ d := fun he => hdc he.symm
  have hs : (logCall.isPrefixOf (stripWs (d :: (pre ++ (fn ++ (args ++ ')' :: ';' :: post))))) ||
      warnCall.isPrefixOf (stripWs (d :: (pre ++ (fn ++ (args ++ ')' :: ';' :: post)))))) = false := by
    rw [hsw, logCall_cons, warnCall_cons,
      isPrefixOf_false_of_ne hcd, isPrefixOf_false_of_ne hcd]
    rfl
  have hexc := inline_excise hfn hpre hargs hpost hTlog hR2
  obtain ⟨m2, hsw2⟩ := @stripWs_cons_head d (pre ++ post.dropWhile wsChar) hdws
  have hne : (stripWs (subInlineRun warnCall (subInlineRun logCall
      (d :: (pre ++ (fn ++ (args ++ ')' :: ';' :: post))))))).isEmpty = false := by
    rw [hexc, hsw2]
    rfl
  rw [cleanLines_cons_inline hc hs hne]
  rw [hexc]
  rfl

theorem single_nl_split {x y u v : List Char} (hx : '\n' ∉ x) (hy : '\n' ∉ y)
    (h : x ++ '\n' :: y = u ++ '\n' :: v) : u = x ∧ v = y := by
  induction x generalizing u with
  | nil =>
    cases u with
    | nil =>
      simp only [List.nil_append, List.cons.injEq] at h
      exact ⟨rfl, h.2.symm⟩
    | cons a u' =>
      simp only [List.nil_append, List.cons_append, List.cons.injEq] at h
      exfalso
      apply hy
      rw [h.2]
      simp [← h.1]
  | cons c x' ih =>
    have hc : c ≠ '\n' := fun he => hx (he ▸ List.mem_cons_self c x')
    cases u with
    | nil =>
      simp only [List.cons_append, List.nil_append, List.cons.injEq] at h
      exact absurd h.1 hc
    | cons a u' =>
      simp only [List.cons_append, List.cons.injEq] at h
      have := ih (fun hm => hx (List.mem_cons_of_mem c hm)) h.2
      exact ⟨by rw [← h.1, this.1], this.2⟩

theorem fn_shape {fn : List Char} (hfn : fn = logCall ∨ fn = warnCall) :
    ∃ f0 fn', fn = f0 :: fn' ∧ wsChar f0 = false := by
  rcases hfn with h | h <;> subst h
  · exact ⟨'c', "onsole.log(".data, by rw [logCall_cons], rfl⟩
  · exact ⟨'c', "onsole.warn(".data, by rw [warnCall_cons], rfl⟩

theorem fn_ne_nil {fn : List Char} (hfn : fn = logCall ∨ fn = warnCall) : fn ≠ [] := by
  rcases hfn with h | h <;> subst h <;> decide

/-- Full `remove_console.py` pipeline on a text that begins with a
standalone targeted call line followed by further lines: the call line's
content is deleted but the line separator survives, leaving an empty
line. -/
theorem remove_standalone_family {fn ws1 args ws2 S' : List Char} {t0 : Char}
    (hfn : fn = logCall ∨ fn = warnCall)
    (hws1 : ∀ a ∈ ws1, wsChar a = true)
    (hargs : ∀ a ∈ args, (a != ')') = true)
    (hws2 : ∀ a ∈ ws2, wsChar a = true) (hws2nl : '\n' ∉ ws2)
    (ht0 : wsChar t0 = false)
    (hS1 : ¬ logCall <:+: ('\n' :: t0 :: S'))
    (hS2 : ¬ warnCall <:+: ('\n' :: t0 :: S'))
    (hSc : collFree ('\n' :: t0 :: S') = true)
    (hTlog : fn = warnCall →
      ¬ logCall <:+: (ws1 ++ (fn ++ (args ++ ')' :: ';' :: (ws2 ++ '\n' :: t0 :: S'))))) :
    remove_console_statements (ws1 ++ (fn ++ (args ++ ')' :: ';' :: (ws2 ++ '\n' :: t0 :: S'))))
      = '\n' :: t0 :: S' := by
  have hmatch : matchStandalone fn (ws1 ++ (fn ++ (args ++ ')' :: ';' :: (ws2 ++ '\n' :: t0 :: S'))))
      = some ('\n' :: t0 :: S') := by
    rw [matchStandalone_at (fn_shape hfn) hws1 hargs]
    exact trailDollar_mid hws2 ht0
  have hTne : ws1 ++ (fn ++ (args ++ ')' :: ';' :: (ws2 ++ '\n' :: t0 :: S'))) ≠ [] := by
    intro he
    rcases List.append_eq_nil.mp he with ⟨_, h2⟩
    exact fn_ne_nil hfn (List.append_eq_nil.mp h2).1
  have hanch : stdAnchAfter (ws1 ++ (fn ++ (args ++ ')' :: ';' :: (ws2 ++ '\n' :: t0 :: S'))))
      ('\n' :: t0 :: S') = false := by
    have hT : ws1 ++ (fn ++ (args ++ ')' :: ';' :: (ws2 ++ '\n' :: t0 :: S')))
        = (((ws1 ++ fn ++ args ++ [')']) ++ [';']) ++ ws2) ++ ('\n' :: t0 :: S') := by
      simp
    rw [hT, stdAnchAfter_append]
    rw [List.getLast?_append]
    cases hw : ws2 with
    | nil =>
      simp only [List.getLast?_nil, Option.none_or, List.getLast?_concat]
      decide
    | cons w0 wr =>
      have hne : ws2 ≠ [] := by rw [hw]; simp
      have : ∃ a, ws2.getLast? = some a ∧ a ∈ ws2 := by
        rw [hw]
        refine ⟨(w0 :: wr).getLast (by simp), List.getLast?_eq_getLast _ _, ?_⟩
        exact List.getLast_mem _
      obtain ⟨a, ha, ham⟩ := this
      rw [← hw, ha]
      have : a ≠ '\n' := fun he => hws2nl (he ▸ ham)
      simp [this]
  have hS1' : ¬ fn <:+: (t0 :: S') := by
    intro hi
    have : fn <:+: ('\n' :: t0 :: S') := hi.trans (List.suffix_cons '\n' (t0 :: S')).isInfix
    rcases hfn with h | h <;> rw [h] at this
    · exact hS1 this
    · exact hS2 this
  have hstd_fn : subStdRun fn true
      (ws1 ++ (fn ++ (args ++ ')' :: ';' :: (ws2 ++ '\n' :: t0 :: S'))))
      = '\n' :: t0 :: S' := by
    rw [subStdRun_match' hTne hmatch, hanch, subStdRun_noanch]
    simp only [beq_self_eq_true]
    rw [subStdRun_id_absent hS1']
  have hA : subStdRun warnCall true (subStdRun logCall true
      (ws1 ++ (fn ++ (args ++ ')' :: ';' :: (ws2 ++ '\n' :: t0 :: S')))))
      = '\n' :: t0 :: S' := by
    rcases hfn with h | h
    · rw [show fn = logCall from h] at hstd_fn ⊢
      rw [hstd_fn, subStdRun_id_absent hS2]
    · rw [show fn = warnCall from h] at hstd_fn hTlog ⊢
      rw [subStdRun_id_absent (hTlog rfl), hstd_fn]
  unfold remove_console_statements
  rw [hA, subInlineRun_id_absent hS1, subInlineRun_id_absent hS2,
    subCatchRun_id_absent hS1, collapseRun_id_of_collFree hSc]

/-- `clean_console.py` deletes a standalone targeted call line entirely:
no trace of the line (not even an empty line) remains. -/
theorem clean_standalone_family {fn ws1 args ws2 : List Char}
    {ls1 ls2 : List (List Char)}
    (hfn : fn = logCall ∨ fn = warnCall)
    (hws1 : ∀ a ∈ ws1, wsChar a = true) (hws2 : ∀ a ∈ ws2, wsChar a = true)
    (hlines : ∀ l ∈ ls1 ++ ls2, '\n' ∉ l)
    (hLnl : '\n' ∉ ws1 ++ (fn ++ (args ++ ')' :: ';' :: ws2))) :
    clean_console_statements (joinNl (ls1 ++ (ws1 ++ (fn ++ (args ++ ')' :: ';' :: ws2))) :: ls2))
      = joinNl (cleanLines ls1 ++ cleanLines ls2) := by
  unfold clean_console_statements
  have hsplit : splitOnNl (joinNl (ls1 ++ (ws1 ++ (fn ++ (args ++ ')' :: ';' :: ws2))) :: ls2))
      = ls1 ++ (ws1 ++ (fn ++ (args ++ ')' :: ';' :: ws2))) :: ls2 := by
    apply splitOnNl_joinNl
    · simp
    · intro l hl
      rcases List.mem_append.mp hl with h | h
      · exact hlines l (List.mem_append_left ls2 h)
      · rcases List.mem_cons.mp h with he | hm
        · rw [he]; exact hLnl
        · exact hlines l (List.mem_append_right ls1 hm)
  rw [hsplit, cleanLines_append]
  have hshape : fn ++ (args ++ ')' :: ';' :: ws2)
      = (fn ++ (args ++ [')', ';'])) ++ ws2 := by simp
  have hstrip : stripWs (ws1 ++ (fn ++ (args ++ ')' :: ';' :: ws2)))
      = fn ++ (args ++ [')', ';']) := by
    rw [hshape]
    apply stripWs_eq hws1 hws2
    · obtain ⟨f0, fn', hsh, hf0⟩ := fn_shape hfn
      exact ⟨f0, fn' ++ (args ++ [')', ';']), by rw [hsh]; simp, hf0⟩
    · exact ⟨';', fn ++ args ++ [')'], by simp, rfl⟩
  have hc : (containsTok logCall (ws1 ++ (fn ++ (args ++ ')' :: ';' :: ws2))) ||
      containsTok warnCall (ws1 ++ (fn ++ (args ++ ')' :: ';' :: ws2)))) = true := by
    have hinf : fn <:+: (ws1 ++ (fn ++ (args ++ ')' :: ';' :: ws2))) :=
      ⟨ws1, args ++ ')' :: ';' :: ws2, by simp⟩
    rcases hfn with h | h <;> rw [← h] <;> rw [containsTok_iff.mpr hinf] <;> simp
  have hs : (logCall.isPrefixOf (stripWs (ws1 ++ (fn ++ (args ++ ')' :: ';' :: ws2)))) ||
      warnCall.isPrefixOf (stripWs (ws1 ++ (fn ++ (args ++ ')' :: ';' :: ws2))))) = true := by
    rw [hstrip]
    have : fn.isPrefixOf (fn ++ (args ++ [')', ';'])) = true :=
      List.isPrefixOf_iff_prefix.mpr ⟨args ++ [')', ';'], rfl⟩
    rcases hfn with h | h <;> rw [← h, this] <;> simp
  rw [cleanLines_cons_skip hc hs]

/-! ### Towards idempotence of the blank-line collapse -/

theorem lastNlSplit_none_iff {w : List Char} : lastNlSplit w = none ↔ '\n' ∉ w := by
  induction w with
  | nil => simp [lastNlSplit]
  | cons c cs ih =>
    unfold lastNlSplit
    cases hs : lastNlSplit cs with
    | some p =>
      obtain ⟨u, v⟩ := p
      simp only []
      constructor
      · intro h; exact absurd h (by simp)
      · intro h
        exfalso
        apply h
        have := lastNlSplit_eq hs
        rw [this]
        simp
    | none =>
      by_cases hc : c = '\n'
      · subst hc; simp
      · simp only [hc, if_false]
        simp only [List.mem_cons]
        constructor
        · intro _ h
          rcases h with h | h
          · exact hc h.symm
          · exact (ih.mp hs) h
        · intro _; trivial

theorem lastNlSplit_some_nl_free {w u v : List Char}
    (h : lastNlSplit w = some (u, v)) : '\n' ∉ v := by
  induction w generalizing u v with
  | nil => simp [lastNlSplit] at h
  | cons c cs ih =>
    unfold lastNlSplit at h
    cases hs : lastNlSplit cs with
    | some p =>
      obtain ⟨u', v'⟩ := p
      rw [hs] at h
      simp only [Option.some.injEq, Prod.mk.injEq] at h
      rw [← h.2]
      exact ih hs
    | none =>
      rw [hs] at h
      by_cases hc : c = '\n'
      · subst hc
        simp only [if_true, Option.some.injEq, Prod.mk.injEq] at h
        rw [← h.2]
        exact lastNlSplit_none_iff.mp hs
      · simp [hc] at h

theorem lastNlSplit_cons_nl_free {v : List Char} (h : '\n' ∉ v) :
    lastNlSplit ('\n' :: v) = some ([], v) := by
  unfold lastNlSplit
  rw [lastNlSplit_none_iff.mpr h]
  simp

theorem dropWhile_head_false {p : Char → Bool} {l : List Char} {c : Char} {cs : List Char}
    (h : l.dropWhile p = c :: cs) : p c = false := by
  induction l with
  | nil => simp [List.dropWhile] at h
  | cons a as ih =>
    rw [List.dropWhile_cons] at h
    by_cases ha : p a = true
    · rw [if_pos ha] at h
      exact ih h
    · rw [if_neg ha] at h
      cases h
      simpa using ha

theorem matchColl_cons_nl (rest : List Char) :
    matchColl ('\n' :: rest) =
      match lastNlSplit (rest.takeWhile wsChar) with
      | some (u, v) =>
        match lastNlSplit u with
        | some _ => some (v ++ rest.dropWhile wsChar)
        | none => none
      | none => none := by
  unfold matchColl
  simp

theorem matchColl_cons_of_count {x : List Char}
    (h : List.count '\n' (x.takeWhile wsChar) ≤ 1) : matchColl ('\n' :: x) = none := by
  rw [matchColl_cons_nl]
  cases hs : lastNlSplit (x.takeWhile wsChar) with
  | none => rfl
  | some p =>
    obtain ⟨u, v⟩ := p
    have hw := lastNlSplit_eq hs
    have hcu : List.count '\n' u = 0 := by
      rw [hw] at h
      simp only [List.count_append, List.count_cons_self] at h
      omega
    have hun : lastNlSplit u = none :=
      lastNlSplit_none_iff.mpr (List.count_eq_zero.mp hcu)
    simp only [hs, hun]

theorem matchColl_none_count {rest : List Char}
    (h : matchColl ('\n' :: rest) = none) :
    List.count '\n' (rest.takeWhile wsChar) ≤ 1 := by
  rw [matchColl_cons_nl] at h
  cases hs : lastNlSplit (rest.takeWhile wsChar) with
  | none =>
    have := lastNlSplit_none_iff.mp hs
    rw [List.count_eq_zero.mpr this]
    omega
  | some p =>
    obtain ⟨u, v⟩ := p
    simp only [hs] at h
    cases hu : lastNlSplit u with
    | some q => simp [hu] at h
    | none =>
      have hw := lastNlSplit_eq hs
      have hcu : List.count '\n' u = 0 :=
        List.count_eq_zero.mpr (lastNlSplit_none_iff.mp hu)
      have hcv : List.count '\n' v = 0 :=
        List.count_eq_zero.mpr (lastNlSplit_some_nl_free hs)
      rw [hw]
      simp [List.count_append, List.count_cons, hcu, hcv]

theorem takeWhile_barrier {r : List Char}
    (hr : r = [] ∨ ∃ c cs, r = c :: cs ∧ wsChar c = false) :
    r.takeWhile wsChar = [] := by
  rcases hr with h | ⟨c, cs, h, hc⟩
  · rw [h]; rfl
  · rw [h]; exact takeWhile_cons_false _ hc

/-- Scanning emits a whitespace run containing at most one newline
verbatim, provided a non-whitespace barrier (or the end) follows. -/
theorem collapseRun_ws1 {w r : List Char}
    (hw : ∀ a ∈ w, wsChar a = true) (hcount : List.count '\n' w ≤ 1)
    (hr : r = [] ∨ ∃ c cs, r = c :: cs ∧ wsChar c = false) :
    collapseRun (w ++ r) = w ++ collapseRun r := by
  apply collapseRun_append
  intro t ht hne
  obtain ⟨c, t', rfl⟩ := List.exists_cons_of_ne_nil hne
  by_cases hc : c = '\n'
  · subst hc
    rw [List.cons_append]
    apply matchColl_cons_of_count
    have hsub : (c₀ : Char) → True := fun _ => trivial
    have ht' : ∀ a ∈ t', wsChar a = true := by
      intro a ha
      exact hw a (ht.subset (List.mem_cons_of_mem _ ha))
    have htw : (t' ++ r).takeWhile wsChar = t' := by
      rw [takeWhile_append_all ht', takeWhile_barrier hr, List.append_nil]
    rw [htw]
    have hcnt : List.count '\n' ('\n' :: t') ≤ List.count '\n' w :=
      ht.sublist.count_le '\n'
    simp only [List.count_cons_self] at hcnt
    omega
  · rw [List.cons_append]
    exact matchColl_cons_ne _ hc

theorem collapseRun_head_barrier {r : List Char}
    (hr : r = [] ∨ ∃ c cs, r = c :: cs ∧ wsChar c = false) :
    (collapseRun r).takeWhile wsChar = [] := by
  rcases hr with h | ⟨c, cs, h, hc⟩
  · rw [h]; rfl
  · subst h
    have hcn : c ≠ '\n' := by
      intro he
      rw [he] at hc
      simp [wsChar] at hc
    rw [collapseRun_nomatch (matchColl_cons_ne _ hcn)]
    exact takeWhile_cons_false _ hc

/-- The output of the blank-line collapse contains no position matching
the collapse pattern: one pass suffices. -/
theorem collapseRun_noColl :
    ∀ (n : Nat) (s : List Char), s.length ≤ n →
      ∀ t, t <:+ collapseRun s → matchColl t = none := by
  intro n
  induction n with
  | zero =>
    intro s hs t ht
    have : s = [] := by cases s <;> simp_all
    subst this
    rw [collapseRun_nil] at ht
    rw [List.suffix_nil.mp ht]
    rfl
  | succ m ih =>
    intro s hs t ht
    cases s with
    | nil =>
      rw [collapseRun_nil] at ht
      rw [List.suffix_nil.mp ht]
      rfl
    | cons c rest =>
      simp only [List.length_cons] at hs
      by_cases hc : c = '\n'
      · subst hc
        cases hm : matchColl ('\n' :: rest) with
        | none =>
          rw [collapseRun_nomatch hm] at ht
          rcases List.suffix_cons_iff.mp ht with he | hsuf
          · -- the full output: show no match at its head
            subst he
            -- decompose rest into its whitespace window and barrier
            have hrw : rest.takeWhile wsChar ++ rest.dropWhile wsChar = rest :=
              List.takeWhile_append_dropWhile wsChar rest
            have hww : ∀ a ∈ rest.takeWhile wsChar, wsChar a = true :=
              fun a ha => List.mem_takeWhile_imp ha
            have hbar : rest.dropWhile wsChar = [] ∨
                ∃ c₀ cs₀, rest.dropWhile wsChar = c₀ :: cs₀ ∧ wsChar c₀ = false := by
              cases hd : rest.dropWhile wsChar with
              | nil => exact Or.inl rfl
              | cons c₀ cs₀ => exact Or.inr ⟨c₀, cs₀, rfl, dropWhile_head_false hd⟩
            have hcnt := matchColl_none_count hm
            have hemit : collapseRun rest
                = rest.takeWhile wsChar ++ collapseRun (rest.dropWhile wsChar) := by
              conv_lhs => rw [← hrw]
              exact collapseRun_ws1 hww hcnt hbar
            apply matchColl_cons_of_count
            rw [hemit, takeWhile_append_all hww, collapseRun_head_barrier hbar,
              List.append_nil]
            exact hcnt
          · exact ih rest (by omega) t hsuf
        | some rem =>
          have hlt := matchColl_some_lt hm
          simp only [List.length_cons] at hlt
          rw [collapseRun_match hm] at ht
          -- structure of the match
          rw [matchColl_cons_nl] at hm
          rcases hsplit : lastNlSplit (rest.takeWhile wsChar) with _ | ⟨u, v⟩
          · simp [hsplit] at hm
          · simp only [hsplit] at hm
            rcases husplit : lastNlSplit u with _ | q
            · simp [husplit] at hm
            · simp only [husplit, Option.some.injEq] at hm
              subst hm
              have hvnl : '\n' ∉ v := lastNlSplit_some_nl_free hsplit
              have hvws : ∀ a ∈ v, wsChar a = true := by
                intro a ha
                apply List.mem_takeWhile_imp (l := rest)
                rw [lastNlSplit_eq hsplit]
                simp [ha]
              have hbar : rest.dropWhile wsChar = [] ∨
                  ∃ c₀ cs₀, rest.dropWhile wsChar = c₀ :: cs₀ ∧ wsChar c₀ = false := by
                cases hd : rest.dropWhile wsChar with
                | nil => exact Or.inl rfl
                | cons c₀ cs₀ => exact Or.inr ⟨c₀, cs₀, rfl, dropWhile_head_false hd⟩
              have hemit : collapseRun (v ++ rest.dropWhile wsChar)
                  = v ++ collapseRun (rest.dropWhile wsChar) :=
                collapseRun_ws1 hvws
                  (by rw [List.count_eq_zero.mpr hvnl]; omega) hbar
              rcases List.suffix_cons_iff.mp ht with he | hsuf
              · -- head position: window is '\n' :: v, only one newline
                subst he
                apply matchColl_cons_of_count
                have : ('\n' :: collapseRun (v ++ rest.dropWhile wsChar)).takeWhile wsChar
                    = '\n' :: v := by
                  rw [hemit]
                  have : wsChar '\n' = true := rfl
                  rw [List.takeWhile_cons, this, if_pos rfl]
                  rw [takeWhile_append_all hvws, collapseRun_head_barrier hbar,
                    List.append_nil]
                rw [this]
                rw [List.count_cons_self, List.count_eq_zero.mpr hvnl]
              · rcases List.suffix_cons_iff.mp hsuf with he2 | hsuf2
                · -- second position: window is v, no newline
                  subst he2
                  apply matchColl_cons_of_count
                  rw [hemit, takeWhile_append_all hvws, collapseRun_head_barrier hbar,
                    List.append_nil]
                  rw [List.count_eq_zero.mpr hvnl]
                  omega
                · exact ih (v ++ rest.dropWhile wsChar) (by omega) t hsuf2
      · rw [collapseRun_nomatch (matchColl_cons_ne _ hc)] at ht
        rcases List.suffix_cons_iff.mp ht with he | hsuf
        · subst he
          exact matchColl_cons_ne _ hc
        · exact ih rest (by omega) t hsuf

/-! ### The claims -/

/-- C1 (counterexample): the claim says the output omits a standalone
targeted call line entirely, but `remove_console.py` replaces the line by
an empty line: on `a;\nconsole.log(1);\nb;` the output is `a;\n\nb;`,
not the two-line text `a;\nb;`, and its line decomposition still has
three lines. -/
theorem c1_standalone_counterexample :
    remove_console_statements ("a;\nconsole.log(1);\nb;".data) = ("a;\n\nb;".data) ∧
    remove_console_statements ("a;\nconsole.log(1);\nb;".data) ≠ ("a;\nb;".data) ∧
    splitOnNl (remove_console_statements ("a;\nconsole.log(1);\nb;".data))
      = ["a;".data, [], "b;".data] := by
  refine ⟨by decide, by decide, by decide⟩

/-- C1 (amended): a line whose only content is a targeted call followed by
`;` is deleted entirely by `clean_console.py` (no trace remains among the
output lines), while `remove_console.py` deletes the line's content but
keeps its separator, leaving an empty line. -/
theorem c1_standalone_amended :
    (∀ (ls1 ls2 : List (List Char)) (ws1 args ws2 fn : List Char),
      (fn = logCall ∨ fn = warnCall) →
      (∀ a ∈ ws1, wsChar a = true) → (∀ a ∈ ws2, wsChar a = true) →
      (∀ l ∈ ls1 ++ ls2, '\n' ∉ l) →
      ('\n' ∉ ws1 ++ (fn ++ (args ++ ')' :: ';' :: ws2))) →
      clean_console_statements
          (joinNl (ls1 ++ (ws1 ++ (fn ++ (args ++ ')' :: ';' :: ws2))) :: ls2))
        = joinNl (cleanLines ls1 ++ cleanLines ls2)) ∧
    (∀ (fn ws1 args ws2 S' : List Char) (t0 : Char),
      (fn = logCall ∨ fn = warnCall) →
      (∀ a ∈ ws1, wsChar a = true) →
      (∀ a ∈ args, (a != ')') = true) →
      (∀ a ∈ ws2, wsChar a = true) → ('\n' ∉ ws2) →
      wsChar t0 = false →
      ¬ logCall <:+: ('\n' :: t0 :: S') → ¬ warnCall <:+: ('\n' :: t0 :: S') →
      collFree ('\n' :: t0 :: S') = true →
      (fn = warnCall →
        ¬ logCall <:+: (ws1 ++ (fn ++ (args ++ ')' :: ';' :: (ws2 ++ '\n' :: t0 :: S'))))) →
      remove_console_statements
          (ws1 ++ (fn ++ (args ++ ')' :: ';' :: (ws2 ++ '\n' :: t0 :: S'))))
        = '\n' :: t0 :: S') := by
  constructor
  · intro ls1 ls2 ws1 args ws2 fn hfn hws1 hws2 hlines hLnl
    exact clean_standalone_family hfn hws1 hws2 hlines hLnl
  · intro fn ws1 args ws2 S' t0 hfn hws1 hargs hws2 hws2nl ht0 hS1 hS2 hSc hTlog
    exact remove_standalone_family hfn hws1 hargs hws2 hws2nl ht0 hS1 hS2 hSc hTlog

/-- Witness for C1 (amended), at the spec's own example line
`    console.log("hi");` inside a two-line file for the clean side, and at
`console.log(1);\nb;` for the remove side. -/
theorem c1_standalone_amended_witness :
    clean_console_statements
        (joinNl (["a;".data] ++ ("    ".data ++ (logCall ++ ("\"hi\"".data ++ ')' :: ';' :: []))) :: ["b;".data]))
      = joinNl (cleanLines ["a;".data] ++ cleanLines ["b;".data]) ∧
    remove_console_statements
        ([] ++ (logCall ++ ("1".data ++ ')' :: ';' :: ([] ++ '\n' :: 'b' :: ";".data))))
      = '\n' :: 'b' :: ";".data :=
  ⟨c1_standalone_amended.1 ["a;".data] ["b;".data] "    ".data "\"hi\"".data [] logCall
      (Or.inl rfl) (by decide) (by decide) (by decide) (by decide),
   c1_standalone_amended.2 logCall [] "1".data [] ";".data 'b'
      (Or.inl rfl) (by decide) (by decide) (by decide) (by decide) (by decide)
      (by decide) (by decide) (by decide) (by decide)⟩

/-- C2 (counterexample): the claim says an inline targeted call is excised
with the rest of the line left intact, but `clean_console.py` deletes the
entire line whenever the stripped line starts with the call: on the single
line `console.log("x"); doMore();` the other statement `doMore();` is lost
and the output is empty. -/
theorem c2_inline_counterexample :
    containsTok ("doMore();".data) ("console.log(\"x\"); doMore();".data) = true ∧
    clean_console_statements ("console.log(\"x\"); doMore();".data) = [] := by
  refine ⟨by decide, by decide⟩

/-- C2 (amended): when a targeted call terminated by `;` is embedded after
other content on a single line (so the stripped line does not start with
the call), both scripts excise just the call, its terminator and its
trailing whitespace, leaving the rest of the line intact. -/
theorem c2_inline_amended :
    ∀ (fn : List Char) (d : Char) (pre args post : List Char),
      (fn = logCall ∨ fn = warnCall) →
      wsChar d = false → d ≠ 'c' →
      ('\n' ∉ (d :: (pre ++ (fn ++ (args ++ ')' :: ';' :: post))))) →
      ¬ fn <:+: (d :: pre) →
      (∀ a ∈ args, (a != ')') = true) →
      ¬ fn <:+: post →
      (fn = warnCall →
        ¬ logCall <:+: (d :: (pre ++ (fn ++ (args ++ ')' :: ';' :: post))))) →
      ¬ logCall <:+: (d :: (pre ++ post.dropWhile wsChar)) →
      ¬ warnCall <:+: (d :: (pre ++ post.dropWhile wsChar)) →
      collFree (d :: (pre ++ post.dropWhile wsChar)) = true →
      remove_console_statements (d :: (pre ++ (fn ++ (args ++ ')' :: ';' :: post))))
          = d :: (pre ++ post.dropWhile wsChar) ∧
        clean_console_statements (d :: (pre ++ (fn ++ (args ++ ')' :: ';' :: post))))
          = d :: (pre ++ post.dropWhile wsChar) := by
  intro fn d pre args post hfn hdws hdc hnl hpre hargs hpost hTlog hR1 hR2 hRcoll
  have hanch : ∀ u v, (d :: (pre ++ (fn ++ (args ++ ')' :: ';' :: post)))) = u ++ '\n' :: v →
      matchStandalone logCall v = none ∧ matchStandalone warnCall v = none := by
    intro u v huv
    exfalso
    apply hnl
    rw [huv]
    simp
  exact ⟨remove_inline_family hfn hdws hdc hanch hpre hargs hpost hTlog hR1 hR2 hRcoll,
    clean_inline_family hfn hdws hdc hnl hpre hargs hpost hTlog hR2⟩

/-- Witness for C2 (amended), at the spec's own example
`doWork(); console.log("x"); doMore();`, whose output is
`doWork(); doMore();` under both scripts. -/
theorem c2_inline_amended_witness :
    remove_console_statements ('d' :: ("oWork(); ".data ++ (logCall ++ ("\"x\"".data ++ ')' :: ';' :: " doMore();".data))))
        = 'd' :: ("oWork(); ".data ++ (" doMore();".data).dropWhile wsChar) ∧
      clean_console_statements ('d' :: ("oWork(); ".data ++ (logCall ++ ("\"x\"".data ++ ')' :: ';' :: " doMore();".data))))
        = 'd' :: ("oWork(); ".data ++ (" doMore();".data).dropWhile wsChar) :=
  c2_inline_amended logCall 'd' "oWork(); ".data "\"x\"".data " doMore();".data
    (Or.inl rfl) (by decide) (by decide) (by decide) (by decide) (by decide)
    (by decide) (by decide) (by decide) (by decide) (by decide)

theorem mem_cleanLines_single {x m : List Char} (h : x ∈ cleanLines [m]) :
    x = m ∨ x = subInlineRun warnCall (subInlineRun logCall m) := by
  by_cases h1 : (containsTok logCall m || containsTok warnCall m) = true
  · by_cases h2 : (logCall.isPrefixOf (stripWs m) || warnCall.isPrefixOf (stripWs m)) = true
    · rw [@cleanLines_cons_skip m [] h1 h2] at h
      simp [cleanLines] at h
    · by_cases h3 : (stripWs (subInlineRun warnCall (subInlineRun logCall m))).isEmpty = true
      · rw [@cleanLines_cons_inline_drop m [] h1 (Bool.eq_false_iff.mpr h2) h3] at h
        simp [cleanLines] at h
      · rw [@cleanLines_cons_inline m [] h1 (Bool.eq_false_iff.mpr h2)
          (Bool.eq_false_iff.mpr h3)] at h
        rcases List.mem_cons.mp h with he | hm
        · exact Or.inr he
        · simp [cleanLines] at hm
  · have hl : containsTok logCall m = false := by
      cases hcl : containsTok logCall m
      · rfl
      · exact absurd (by simp [hcl]) h1
    have hw : containsTok warnCall m = false := by
      cases hcw : containsTok warnCall m
      · rfl
      · exact absurd (by simp [hcw]) h1
    rw [@cleanLines_cons_keep m [] hl hw] at h
    rcases List.mem_cons.mp h with he | hm
    · exact Or.inl he
    · simp [cleanLines] at hm

theorem cleanLines_no_nl {ls : List (List Char)} (h : ∀ l ∈ ls, '\n' ∉ l) :
    ∀ m ∈ cleanLines ls, '\n' ∉ m := by
  induction ls with
  | nil => simp [cleanLines]
  | cons l ls' ih =>
    intro m hm
    rw [cleanLines_cons_split] at hm
    rcases List.mem_append.mp hm with hs | hs
    · rcases mem_cleanLines_single hs with he | he
      · subst he
        exact h m (by simp)
      · subst he
        intro hmem
        exact h l (by simp) (subInlineRun_subset (subInlineRun_subset hmem))
    · exact ih (fun x hx => h x (List.mem_cons_of_mem l hx)) m hs

/-- C3 (counterexample): the claim says every line containing a
`console.error` call is byte-identical in the output, but a line that also
contains a targeted call is rewritten by both scripts: on the single line
`x; console.log(1); console.error(2);` both outputs drop the
`console.log` call, so the line is not preserved byte-for-byte. -/
theorem c3_error_line_counterexample :
    ('\n' ∉ ("x; console.log(1); console.error(2);".data)) ∧
    containsTok ("console.error(".data) ("x; console.log(1); console.error(2);".data) = true ∧
    remove_console_statements ("x; console.log(1); console.error(2);".data)
      = ("x; console.error(2);".data) ∧
    clean_console_statements ("x; console.log(1); console.error(2);".data)
      = ("x; console.error(2);".data) ∧
    ("x; console.error(2);".data : List Char) ≠ ("x; console.log(1); console.error(2);".data) := by
  refine ⟨by decide, by decide, by decide, by decide, by decide⟩

/-- C3 (amended): `console.error` itself is never targeted: a line
containing no `console.log(` / `console.warn(` occurrence (in particular a
pure `console.error` line) survives `clean_console.py` unchanged among the
output lines, and a whole text with no targeted occurrence (and no
collapsible blank run) passes through `remove_console.py` unchanged. -/
theorem c3_error_line_amended :
    (∀ s l : List Char, l ∈ splitOnNl s → ¬ logCall <:+: l → ¬ warnCall <:+: l →
      l ∈ splitOnNl (clean_console_statements s)) ∧
    (∀ s : List Char, ¬ logCall <:+: s → ¬ warnCall <:+: s → collFree s = true →
      remove_console_statements s = s) := by
  constructor
  · intro s l hl h1 h2
    have hmem : l ∈ cleanLines (splitOnNl s) :=
      cleanLines_mem_of hl (containsTok_false h1) (containsTok_false h2)
    have hsplit : splitOnNl (clean_console_statements s) = cleanLines (splitOnNl s) := by
      unfold clean_console_statements
      apply splitOnNl_joinNl (List.ne_nil_of_mem hmem)
      exact cleanLines_no_nl (fun x hx => splitOnNl_mem_no_nl hx)
    rw [hsplit]
    exact hmem
  · intro s h1 h2 h3
    exact remove_id h1 h2 h3

/-- Witness for C3 (amended): the `console.error("fail");` line survives
cleaning of a two-line file, and a `console.error`-only text passes
through `remove_console.py` unchanged. -/
theorem c3_error_line_amended_witness :
    ("console.error(\"fail\");".data ∈ splitOnNl (clean_console_statements ("keep();\nconsole.error(\"fail\");".data))) ∧
    remove_console_statements ("console.error(1);\nok();".data) = ("console.error(1);\nok();".data) :=
  ⟨c3_error_line_amended.1 ("keep();\nconsole.error(\"fail\");".data) ("console.error(\"fail\");".data)
      (by decide) (by decide) (by decide),
   c3_error_line_amended.2 ("console.error(1);\nok();".data) (by decide) (by decide) (by decide)⟩

/-- C4 (counterexample): the claim covers every targeted call as sole
argument of a `.catch(...)` callback, but only `remove_console.py` and only
`console.log` is handled: a `console.warn` catch is left untouched by both
scripts, and `clean_console.py` leaves even a `console.log` catch
untouched — no no-op callback appears in either output. -/
theorem c4_catch_counterexample :
    remove_console_statements (".catch(e => console.warn(e))".data)
      = (".catch(e => console.warn(e))".data) ∧
    clean_console_statements (".catch(e => console.warn(e))".data)
      = (".catch(e => console.warn(e))".data) ∧
    clean_console_statements (".catch(e => console.log(e))".data)
      = (".catch(e => console.log(e))".data) ∧
    containsTok catchRepl (".catch(e => console.warn(e))".data) = false := by
  refine ⟨by decide, by decide, by decide, by decide⟩

/-- C4 (amended): `remove_console.py` replaces a `.catch(...)` construct
whose argument contains a `console.log` call by the no-op error-handling
callback `.catch(e => {})`; `console.warn` catches and `clean_console.py`
leave the construct unchanged (counterexample theorem). -/
theorem c4_catch_amended :
    ∀ (d : Char) (pre b1 b2 b3 post : List Char),
      wsChar d = false → d ≠ 'c' →
      (';' ∉ (d :: (pre ++ (catchTok ++ (b1 ++ (logCall ++ (b2 ++ ')' :: (b3 ++ ')' :: post)))))))) →
      ¬ catchTok <:+: (d :: pre) →
      (∀ a ∈ b1, a ≠ ')') → (∀ a ∈ b2, a ≠ ')') → (∀ a ∈ b3, a ≠ ')') →
      ¬ logCall <:+: (logCall.drop 1 ++ b2) →
      ¬ logCall <:+: post →
      collFree (d :: (pre ++ (catchRepl ++ post))) = true →
      remove_console_statements
          (d :: (pre ++ (catchTok ++ (b1 ++ (logCall ++ (b2 ++ ')' :: (b3 ++ ')' :: post)))))))
        = d :: (pre ++ (catchRepl ++ post)) := by
  intro d pre b1 b2 b3 post hdws hdc hsemi hpre hb1 hb2 hb3 hocc hpost hRcoll
  unfold remove_console_statements
  rw [subStdRun_id_no_semi hsemi, subStdRun_id_no_semi hsemi,
    subInlineRun_id_no_semi hsemi, subInlineRun_id_no_semi hsemi]
  have hT : d :: (pre ++ (catchTok ++ (b1 ++ (logCall ++ (b2 ++ ')' :: (b3 ++ ')' :: post))))))
      = (d :: pre) ++ (catchTok ++ (b1 ++ (logCall ++ (b2 ++ ')' :: (b3 ++ ')' :: post))))) := by
    simp
  rw [hT]
  rw [subCatchRun_append (fun t ht hne => matchCatch_none_mid hpre ht hne)]
  rw [subCatchRun_match' (by
      intro he
      rcases List.append_eq_nil.mp he with ⟨h1, _⟩
      exact absurd h1 (by decide))
    (matchCatch_at hb1 hb2 hb3 hocc)]
  rw [subCatchRun_id_absent hpost]
  rw [collapseRun_id_of_collFree (by simpa using hRcoll)]
  simp

/-- Witness for C4 (amended), at `p.then(f).catch(e => console.log(e))`,
which becomes `p.then(f).catch(e => {})`. -/
theorem c4_catch_amended_witness :
    remove_console_statements
        ('p' :: (".then(f)".data ++ (catchTok ++ ("e => ".data ++ (logCall ++ ("e".data ++ ')' :: ([] ++ ')' :: [])))))))
      = 'p' :: (".then(f)".data ++ (catchRepl ++ [])) :=
  c4_catch_amended 'p' ".then(f)".data "e => ".data "e".data [] []
    (by decide) (by decide) (by decide) (by decide) (by decide) (by decide)
    (by decide) (by decide) (by decide) (by decide)

/-- C5 (counterexample): on the three-line input `let x = 1;`,
`console.log(x);`, `console.error("fail");`, the claim expects exactly the
two lines `let x = 1;` and `console.error("fail");`; `remove_console.py`
instead leaves an empty middle line. -/
theorem c5_scenario_counterexample :
    remove_console_statements ("let x = 1;\nconsole.log(x);\nconsole.error(\"fail\");".data)
      = ("let x = 1;\n\nconsole.error(\"fail\");".data) ∧
    remove_console_statements ("let x = 1;\nconsole.log(x);\nconsole.error(\"fail\");".data)
      ≠ ("let x = 1;\nconsole.error(\"fail\");".data) := by
  refine ⟨by decide, by decide⟩

/-- C5 (amended): on the scenario input, `clean_console.py` produces
exactly the expected two lines, while `remove_console.py` produces
`let x = 1;`, an empty line, then `console.error("fail");`. -/
theorem c5_scenario_amended :
    clean_console_statements ("let x = 1;\nconsole.log(x);\nconsole.error(\"fail\");".data)
      = ("let x = 1;\nconsole.error(\"fail\");".data) ∧
    remove_console_statements ("let x = 1;\nconsole.log(x);\nconsole.error(\"fail\");".data)
      = ("let x = 1;\n\nconsole.error(\"fail\");".data) ∧
    splitOnNl (clean_console_statements ("let x = 1;\nconsole.log(x);\nconsole.error(\"fail\");".data))
      = ["let x = 1;".data, "console.error(\"fail\");".data] := by
  refine ⟨by decide, by decide, by decide⟩

/-- C6: the collapse substitution of `remove_console.py` rewrites a run of
`k ≥ 3` newlines (three or more consecutive blank-line separators) between
non-blank content to exactly two newlines, i.e. one blank line separating
the content, and continues on the remainder. -/
theorem c6_collapse_blank_runs (a b : List Char) (k : Nat)
    (ha : '\n' ∉ a) (hk : 3 ≤ k)
    (hb : b = [] ∨ ∃ b0 bs, b = b0 :: bs ∧ wsChar b0 = false) :
    collapseRun (a ++ (List.replicate k '\n' ++ b))
      = a ++ ('\n' :: '\n' :: collapseRun b) := by
  obtain ⟨n, rfl⟩ : ∃ n, k = n + 3 := ⟨k - 3, by omega⟩
  have hrep : ∀ j, ∀ a ∈ List.replicate j '\n', wsChar a = true := by
    intro j a ha2
    rw [List.eq_of_mem_replicate ha2]
    rfl
  have hstep1 : collapseRun (a ++ (List.replicate (n + 3) '\n' ++ b))
      = a ++ collapseRun (List.replicate (n + 3) '\n' ++ b) := by
    apply collapseRun_append
    intro t ht hne
    obtain ⟨c, t', rfl⟩ := List.exists_cons_of_ne_nil hne
    have hc : c ≠ '\n' := by
      intro he
      apply ha
      rw [← he]
      exact ht.subset (by simp)
    rw [List.cons_append]
    exact matchColl_cons_ne _ hc
  rw [hstep1]
  have hcons : List.replicate (n + 3) '\n' ++ b
      = '\n' :: (List.replicate (n + 2) '\n' ++ b) := by
    rw [List.replicate_succ]
    rfl
  have htw : (List.replicate (n + 2) '\n' ++ b).takeWhile wsChar
      = List.replicate (n + 2) '\n' := by
    rw [takeWhile_append_all (hrep (n + 2)), takeWhile_barrier hb, List.append_nil]
  have hdw : (List.replicate (n + 2) '\n' ++ b).dropWhile wsChar = b := by
    rw [dropWhile_append_all (hrep (n + 2))]
    rcases hb with h | ⟨b0, bs, h, hb0⟩
    · rw [h]; rfl
    · rw [h]; exact dropWhile_cons_false _ hb0
  have hmatch : matchColl (List.replicate (n + 3) '\n' ++ b) = some b := by
    rw [hcons, matchColl_cons_nl, htw, hdw]
    simp [lastNlSplit_replicate]
  rw [hcons] at hmatch ⊢
  rw [collapseRun_match hmatch]

/-- C7: the collapse-blank-lines rule is idempotent: for every text,
applying the collapse substitution twice yields the same result as
applying it once. -/
theorem c7_collapse_idempotent (s : List Char) :
    collapseRun (collapseRun s) = collapseRun s :=
  collapseRun_id (collapseRun_noColl s.length s le_rfl)

/-- Witness for C6, at `x;` + four newlines + `y;`. -/
theorem c6_collapse_blank_runs_witness :
    collapseRun ("x;".data ++ (List.replicate 4 '\n' ++ "y;".data))
      = "x;".data ++ ('\n' :: '\n' :: collapseRun "y;".data) :=
  c6_collapse_blank_runs "x;".data "y;".data 4 (by decide) (by decide)
    (Or.inr ⟨'y', ";".data, rfl, by decide⟩)

/-- C8 (counterexample): the two scripts do not realize one and the same
transformation: on `a(); console.log(x);\nb();` the inline pass of
`remove_console.py` also consumes the line break (joining the lines), while
`clean_console.py` keeps the line structure; the outputs differ. -/
theorem c8_equivalence_counterexample :
    remove_console_statements ("a(); console.log(x);\nb();".data) = ("a(); b();".data) ∧
    clean_console_statements ("a(); console.log(x);\nb();".data) = ("a(); \nb();".data) ∧
    clean_console_statements ("a(); console.log(x);\nb();".data)
      ≠ remove_console_statements ("a(); console.log(x);\nb();".data) := by
  refine ⟨by decide, by decide, by decide⟩

/-- C8 (amended): the two scripts are not extensionally equal, but they do
agree — both acting as the identity — on every text containing no
`console.log(` or `console.warn(` occurrence and no collapsible blank
run. -/
theorem c8_equivalence_amended (s : List Char)
    (h1 : ¬ logCall <:+: s) (h2 : ¬ warnCall <:+: s) (h3 : collFree s = true) :
    clean_console_statements s = remove_console_statements s ∧
    remove_console_statements s = s := by
  refine ⟨?_, remove_id h1 h2 h3⟩
  rw [clean_id h1 h2, remove_id h1 h2 h3]

/-- Witness for C8 (amended), at a `console.error`-only two-line text. -/
theorem c8_equivalence_amended_witness :
    (¬ logCall <:+: ("console.error(9);\nok();".data)) ∧
    (¬ warnCall <:+: ("console.error(9);\nok();".data)) ∧
    collFree ("console.error(9);\nok();".data) = true ∧
    (clean_console_statements ("console.error(9);\nok();".data)
        = remove_console_statements ("console.error(9);\nok();".data) ∧
      remove_console_statements ("console.error(9);\nok();".data)
        = ("console.error(9);\nok();".data)) :=
  ⟨by decide, by decide, by decide,
    c8_equivalence_amended ("console.error(9);\nok();".data) (by decide) (by decide) (by decide)⟩

/-- C9: both core transformations are total functions of the input text —
they terminate and produce an output on every input, including malformed
ones (here an unbalanced, unterminated call), with no failure path. -/
theorem c9_no_failure :
    (∀ s : List Char, ∃ t u : List Char,
      remove_console_statements s = t ∧ clean_console_statements s = u) ∧
    remove_console_statements ("console.log(\"unbalanced".data)
      = ("console.log(\"unbalanced".data) ∧
    clean_console_statements ("console.log(\"unbalanced".data) = [] := by
  refine ⟨fun s => ⟨_, _, rfl, rfl⟩, by decide, by decide⟩

/-- C10: in `remove_console.py`, when a targeted call terminated by `;`
ends a line that has other content before the call, the inline pattern's
trailing `\s*` also consumes the line break (and the next line's leading
whitespace), so the following line is joined onto the current one. -/
theorem c10_inline_joins_lines :
    ∀ (fn : List Char) (d t0 : Char) (pre args ws2 next : List Char),
      (fn = logCall ∨ fn = warnCall) →
      wsChar d = false → d ≠ 'c' →
      ('\n' ∉ d :: pre) → ('\n' ∉ args) → ('\n' ∉ ws2) → ('\n' ∉ next) →
      (∀ a ∈ ws2, wsChar a = true) → wsChar t0 = false →
      ¬ fn <:+: (d :: pre) →
      (∀ a ∈ args, (a != ')') = true) →
      ¬ fn <:+: (ws2 ++ '\n' :: t0 :: next) →
      ¬ logCall <:+: (t0 :: next) → ¬ warnCall <:+: (t0 :: next) →
      (fn = warnCall →
        ¬ logCall <:+: (d :: (pre ++ (fn ++ (args ++ ')' :: ';' :: (ws2 ++ '\n' :: t0 :: next)))))) →
      ¬ logCall <:+: (d :: (pre ++ t0 :: next)) →
      ¬ warnCall <:+: (d :: (pre ++ t0 :: next)) →
      collFree (d :: (pre ++ t0 :: next)) = true →
      remove_console_statements
          (d :: (pre ++ (fn ++ (args ++ ')' :: ';' :: (ws2 ++ '\n' :: t0 :: next)))))
        = d :: (pre ++ t0 :: next) := by
  intro fn d t0 pre args ws2 next hfn hdws hdc hprenl hargsnl hws2nl hnextnl hws2
    ht0 hpre hargs hpost hn1 hn2 hTlog hR1 hR2 hRcoll
  have hdrop : (ws2 ++ '\n' :: t0 :: next).dropWhile wsChar = t0 :: next := by
    rw [dropWhile_append_all hws2, List.dropWhile_cons]
    rw [if_pos (by rfl)]
    exact dropWhile_cons_false _ ht0
  have hfnnl : '\n' ∉ fn := by
    rcases hfn with h | h <;> rw [h] <;> decide
  have hanch : ∀ u v,
      (d :: (pre ++ (fn ++ (args ++ ')' :: ';' :: (ws2 ++ '\n' :: t0 :: next))))) = u ++ '\n' :: v →
      matchStandalone logCall v = none ∧ matchStandalone warnCall v = none := by
    intro u v huv
    have hshape : (d :: (pre ++ (fn ++ (args ++ ')' :: ';' :: (ws2 ++ '\n' :: t0 :: next)))))
        = (d :: (pre ++ (fn ++ (args ++ ')' :: ';' :: ws2)))) ++ '\n' :: (t0 :: next) := by
      simp
    rw [hshape] at huv
    have hxnl : '\n' ∉ (d :: (pre ++ (fn ++ (args ++ ')' :: ';' :: ws2)))) := by
      intro hm
      rcases List.mem_cons.mp hm with he | hm2
      · exact hprenl (he ▸ List.mem_cons_self d pre)
      · rcases List.mem_append.mp hm2 with h | h
        · exact hprenl (List.mem_cons_of_mem d h)
        · rcases List.mem_append.mp h with h | h
          · exact hfnnl h
          · rcases List.mem_append.mp h with h | h
            · exact hargsnl h
            · rcases List.mem_cons.mp h with h | h
              · exact absurd h.symm (by decide)
              · rcases List.mem_cons.mp h with h | h
                · exact absurd h.symm (by decide)
                · exact hws2nl h
    have hynl : '\n' ∉ (t0 :: next) := by
      intro hm
      rcases List.mem_cons.mp hm with he | hm2
      · rw [← he] at ht0
        exact absurd ht0 (by decide)
      · exact hnextnl hm2
    obtain ⟨hu, hv⟩ := single_nl_split hxnl hynl huv
    constructor
    · apply matchStandalone_none_of
      rw [hv, dropWhile_cons_false _ ht0]
      intro hp
      exact hn1 (List.infix_iff_prefix_suffix.mpr ⟨t0 :: next, hp, List.suffix_refl _⟩)
    · apply matchStandalone_none_of
      rw [hv, dropWhile_cons_false _ ht0]
      intro hp
      exact hn2 (List.infix_iff_prefix_suffix.mpr ⟨t0 :: next, hp, List.suffix_refl _⟩)
  have := remove_inline_family hfn hdws hdc hanch hpre hargs hpost hTlog
    (by rwa [hdrop]) (by rwa [hdrop]) (by rwa [hdrop])
  rwa [hdrop] at this

/-- Witness for C10, at `a(); console.log(x);\nb();`, whose
`remove_console.py` output is the joined line `a(); b();`. -/
theorem c10_inline_joins_lines_witness :
    remove_console_statements
        ('a' :: ("(); ".data ++ (logCall ++ ("x".data ++ ')' :: ';' :: ([] ++ '\n' :: 'b' :: "();".data)))))
      = 'a' :: ("(); ".data ++ 'b' :: "();".data) :=
  c10_inline_joins_lines logCall 'a' 'b' "(); ".data "x".data [] "();".data
    (Or.inl rfl) (by decide) (by decide) (by decide) (by decide) (by decide)
    (by decide) (by decide) (by decide) (by decide) (by decide) (by decide)
    (by decide) (by decide) (by decide) (by decide) (by decide) (by decide)
